import Mathlib

/-!
Verification of the otelturbine OTLP → Prometheus remote-write pipeline.

Shallow embedding of the repository's source:
* `src/util/varint.ts` — LEB128 varint primitives (fast JS-number path and
  BigInt path);
* `src/proto/writeRequest.ts` — the two-pass wire encoder;
* `src/transform/otlpToTimeSeries.ts` — the OTLP converter;
* the schema engine (`compileFastMatcher`, `bsearchLabel`, `applySchemas`,
  `applySchema`);
* `src/core/Pipeline.ts` — the pipeline orchestrator;
* the compat ingest session (`IngestSession.push`, `normalizeRequest`).

Modelling conventions:
* JS strings are modelled as lists of natural numbers (their code units);
  byte strings (the encoder side) are lists of naturals as well.
* JS numbers used as nonnegative integers are modelled as `Nat` with the
  32-bit semantics of `>>>` and `&` made explicit via `% 2 ^ 32`.
* Double-precision payload values are modelled as exact rationals where the
  code only moves them around, and a sample's 8-byte IEEE-754 image is an
  opaque 8-byte list on the encoder side (the encoder never inspects it).
* Runtime-dependent functions (`localeCompare`, number → string rendering,
  `Date.now`, regular-expression `test`) are parameters of the embedding.
* Fallible code (JS `for … of` over `undefined` throws) returns `Except`.
-/

namespace Turbine

/-- JS strings / byte strings: lists of code units (naturals). -/
abbrev Str := List Nat

/-- Code-unit list of a Lean string literal (all our literals are ASCII,
where UTF-16 code units and code points coincide). -/
def str (s : String) : Str :=
  s.data.map Char.toNat

/-- Ordinal (code-unit lexicographic) strict comparison — the semantics of
the JS `<` operator on strings, used by `bsearchLabel` and the re-sort
comparators in the schema engine. -/
def strLt : Str → Str → Bool
  | [], [] => false
  | [], _ :: _ => true
  | _ :: _, [] => false
  | a :: as, b :: bs => if a < b then true else if b < a then false else strLt as bs

/-- `a ≤ b` under ordinal comparison. -/
def strLe (a b : Str) : Bool := !strLt b a

/-! ### Varint codec — `src/util/varint.ts` -/

/-- `intVarintSize` (fast path): byte length of a non-negative JS number
varint, by threshold comparison.  Verbatim from the source, including the
hard `5` cap (“up to ~4 GB”). -/
def intVarintSize (n : Nat) : Nat :=
  if n < 128 then 1
  else if n < 16384 then 2
  else if n < 2097152 then 3
  else if n < 268435456 then 4
  else 5

/-- Byte stream produced by `writeIntVarint` (fast path) for a non-negative
integer.  The source loop is `while (value > 0x7f) { buf[i++] = (value &
0x7f) | 0x80; value >>>= 7; }`; JS `&` and `>>>` operate on the value
reduced mod `2 ^ 32`, hence the `% 2 ^ 32` in the recursive call (the low
7 bits themselves are unaffected by that reduction since `128 ∣ 2 ^ 32`). -/
def writeIntVarintBytes (value : Nat) : List Nat :=
  if value > 127 then
    (value % 128 + 128) :: writeIntVarintBytes (value % 2 ^ 32 / 128)
  else
    [value]
termination_by value
decreasing_by
  have h1 : value % 2 ^ 32 ≤ value := Nat.mod_le _ _
  have h2 : value % 2 ^ 32 / 128 ≤ value / 128 := Nat.div_le_div_right h1
  have h3 : value / 128 < value := Nat.div_lt_self (by omega) (by omega)
  omega

/-- Byte stream produced by `writeVarint` (BigInt path) for a non-negative
value: a do-while loop emitting 7 bits at a time, setting the continuation
bit whenever the shifted value is still nonzero.  (The source's negative
two's-complement coercion is outside the non-negative domain modelled
here.) -/
def writeVarintBytes (value : Nat) : List Nat :=
  if value < 128 then [value]
  else (value % 128 + 128) :: writeVarintBytes (value / 128)
termination_by value
decreasing_by
  exact Nat.div_lt_self (by omega) (by omega)

/-- `varintSize` (BigInt path): loop counting 7-bit shifts until zero. -/
def varintSizeGo (value : Nat) : Nat :=
  if value = 0 then 0 else 1 + varintSizeGo (value / 128)
termination_by value
decreasing_by
  exact Nat.div_lt_self (by omega) (by omega)

/-- `varintSize` from the source: `0` takes one byte, otherwise count
shifts. -/
def varintSize (value : Nat) : Nat :=
  if value = 0 then 1 else varintSizeGo value

/-! ### Association-list model of JS objects and `Map`s

A JS object literal (and a `Map`) keeps keys in first-insertion order and
overwrites the value in place on re-insertion; `Object.entries` /
`Map.prototype.entries` iterate in that order. -/

/-- Setting a key on a JS object / `Map`: overwrite in place if present,
append otherwise. -/
def recSet {α : Type} (m : List (Str × α)) (k : Str) (v : α) : List (Str × α) :=
  if m.any (fun p => decide (p.1 = k)) then
    m.map (fun p => if p.1 = k then (k, v) else p)
  else m ++ [(k, v)]

/-- Reading a key from a JS object / `Map` (first matching entry). -/
def lookupRec {α : Type} (m : List (Str × α)) (k : Str) : Option α :=
  (m.find? (fun p => decide (p.1 = k))).map Prod.snd

/-! ### Runtime parameters of the embedding -/

/-- A JS regular-expression object: its `source` and `flags` strings (what
the schema compiler inspects) and its `test` behaviour (what application
evaluates).  `test` is carried abstractly: the relation between `source`,
`flags` and `test` is the JS regex engine's semantics, which theorems
take as hypotheses where they need it. -/
structure JsRegExp where
  source : Str
  flags : Str
  test : Str → Bool

/-- Runtime-dependent functions the converter closes over:
`String.prototype.localeCompare` (as a boolean `≤` comparator on code-unit
strings), the `String(…)` renderings of JS numbers and integer attribute
payloads, and `Date.now()`. -/
structure JsEnv where
  lcLe : Str → Str → Bool
  showNum : Rat → Str
  showInt : Int → Str
  now : Nat

/-! ### Data model — `src/types/prometheus.ts` (converter/schema side) -/

/-- A label: `(name, value)` code-unit strings. -/
structure Label where
  name : Str
  value : Str
deriving DecidableEq

/-- A sample: payload doubles are carried as exact rationals (the converter
and schema engine only move them around), timestamps as nonnegative
milliseconds. -/
structure Sample where
  value : Rat
  timestamp : Nat
deriving DecidableEq

structure TimeSeries where
  labels : List Label
  samples : List Sample
deriving DecidableEq

/-! ### OTLP payload model — `src/types/otlp.ts`

Fields whose runtime absence is observable (`undefined` in JS) are
`Option`; in particular the three nesting lists are `Option` because the
JSON payload may omit them even though the declared type marks them
required. -/

inductive OtlpValue where
  | strV (s : Str)
  | intV (i : Int)
  | doubleV (q : Rat)
  | boolV (b : Bool)
  | otherV
deriving DecidableEq

structure OtlpKeyValue where
  key : Str
  value : OtlpValue
deriving DecidableEq

structure OtlpNumberDataPoint where
  attributes : Option (List OtlpKeyValue)
  timeUnixNano : Option Nat
  asDouble : Option Rat
  asInt : Option Int
deriving DecidableEq

structure OtlpHistogramDataPoint where
  attributes : Option (List OtlpKeyValue)
  timeUnixNano : Option Nat
  count : Option Nat
  sum : Option Rat
  bucketCounts : Option (List Nat)
  explicitBounds : Option (List Rat)
deriving DecidableEq

/-- A metric: the `gauge` / `sum` / `histogram` wrappers are collapsed to
their `dataPoints` lists (the only field the converter reads). -/
structure OtlpMetric where
  name : Str
  gauge : Option (List OtlpNumberDataPoint)
  sum : Option (List OtlpNumberDataPoint)
  histogram : Option (List OtlpHistogramDataPoint)
deriving DecidableEq

structure OtlpResource where
  attributes : Option (List OtlpKeyValue)
deriving DecidableEq

structure OtlpScopeMetrics where
  metrics : Option (List OtlpMetric)
deriving DecidableEq

structure OtlpResourceMetrics where
  resource : Option OtlpResource
  scopeMetrics : Option (List OtlpScopeMetrics)
deriving DecidableEq

structure OtlpMetricsPayload where
  resourceMetrics : Option (List OtlpResourceMetrics)
deriving DecidableEq

/-! ### OTLP converter — `src/transform/otlpToTimeSeries.ts` -/

/-- Stringification of attribute values in `attrsToMap`. -/
def valueToString (env : JsEnv) : OtlpValue → Str
  | .strV s => s
  | .intV i => env.showInt i
  | .doubleV q => env.showNum q
  | .boolV b => if b then str ("true") else str ("false")
  | .otherV => []

/-- `attrsToMap`: build a plain string map (JS object) from a key-value
list; a missing list gives the empty map. -/
def attrsToMap (env : JsEnv) (attrs : Option (List OtlpKeyValue)) : List (Str × Str) :=
  match attrs with
  | none => []
  | some l => l.foldl (fun m kv => recSet m kv.key (valueToString env kv.value)) []

/-- `nanoToMs`: `BigInt(timeUnixNano) / 1_000_000n`, `Date.now()` when the
field is absent. -/
def nanoToMs (env : JsEnv) (timeUnixNano : Option Nat) : Nat :=
  match timeUnixNano with
  | none => env.now
  | some t => t / 1000000

/-- `buildLabels`: `__name__` first, then the merged attributes, then
`sort((a, b) => a.name.localeCompare(b.name))` — modelled as a stable
merge sort by the runtime's locale comparator. -/
def buildLabels (env : JsEnv) (name : Str) (merged : List (Str × Str)) : List Label :=
  (Label.mk (str ("__name__")) name :: merged.map (fun p => Label.mk p.1 p.2)).mergeSort
    (fun a b => env.lcLe a.name b.name)

/-- `mergeAttrs`: `{...resourceAttrs, ...attrsToMap(dpAttrs)}` — data-point
values win on key conflict. -/
def mergeAttrs (env : JsEnv) (resourceAttrs : List (Str × Str))
    (dpAttrs : Option (List OtlpKeyValue)) : List (Str × Str) :=
  (attrsToMap env dpAttrs).foldl (fun m p => recSet m p.1 p.2) resourceAttrs

/-- `processNumberDataPoint` (gauge / sum): value is `asDouble`, else
`asInt` coerced, else zero. -/
def processNumberDataPoint (env : JsEnv) (name : Str) (dp : OtlpNumberDataPoint)
    (resourceAttrs : List (Str × Str)) : TimeSeries :=
  let merged := mergeAttrs env resourceAttrs dp.attributes
  let value : Rat :=
    match dp.asDouble with
    | some d => d
    | none =>
      match dp.asInt with
      | some i => (i : Rat)
      | none => 0
  { labels := buildLabels env name merged,
    samples := [⟨value, nanoToMs env dp.timeUnixNano⟩] }

/-- `processHistogramDataPoint`: `bounds.length + 1` cumulative `_bucket`
series (the running sum over `bucketCounts`, missing entries counting 0,
is the sum of the first `i + 1` entries), then `_count` and `_sum`. -/
def processHistogramDataPoint (env : JsEnv) (name : Str) (dp : OtlpHistogramDataPoint)
    (resourceAttrs : List (Str × Str)) : List TimeSeries :=
  let merged := mergeAttrs env resourceAttrs dp.attributes
  let ts := nanoToMs env dp.timeUnixNano
  let bounds := dp.explicitBounds.getD []
  let bucketCounts := dp.bucketCounts.getD []
  let buckets := (List.range (bounds.length + 1)).map (fun i =>
    let le := if i < bounds.length then env.showNum (bounds.getD i 0) else str ("+Inf")
    TimeSeries.mk
      (buildLabels env (name ++ str ("_bucket")) (recSet merged (str ("le")) le))
      [⟨((bucketCounts.take (i + 1)).sum : Rat), ts⟩])
  buckets ++
    [ TimeSeries.mk (buildLabels env (name ++ str ("_count")) merged)
        [⟨(dp.count.getD 0 : Rat), ts⟩],
      TimeSeries.mk (buildLabels env (name ++ str ("_sum")) merged)
        [⟨dp.sum.getD 0, ts⟩] ]

/-- One metric: `gauge`, else `sum`, else `histogram`, else silently
skipped. -/
def convertMetric (env : JsEnv) (resourceAttrs : List (Str × Str)) (m : OtlpMetric) :
    List TimeSeries :=
  match m.gauge with
  | some dps => dps.map (fun dp => processNumberDataPoint env m.name dp resourceAttrs)
  | none =>
    match m.sum with
    | some dps => dps.map (fun dp => processNumberDataPoint env m.name dp resourceAttrs)
    | none =>
      match m.histogram with
      | some dps => dps.flatMap (fun dp => processHistogramDataPoint env m.name dp resourceAttrs)
      | none => []

/-- One scope entry: `for (const metric of sm.metrics)` over an absent
list throws at runtime (`undefined` is not iterable), hence `Except`. -/
def convertScope (env : JsEnv) (resourceAttrs : List (Str × Str)) (sm : OtlpScopeMetrics) :
    Except Unit (List TimeSeries) :=
  match sm.metrics with
  | none => .error ()
  | some ms => .ok (ms.flatMap (convertMetric env resourceAttrs))

/-- One resource entry: resource attributes are read leniently
(`rm.resource?.attributes`), but iterating an absent `scopeMetrics`
throws. -/
def convertResource (env : JsEnv) (rm : OtlpResourceMetrics) :
    Except Unit (List TimeSeries) :=
  match rm.scopeMetrics with
  | none => .error ()
  | some sms =>
    (sms.mapM (convertScope env (attrsToMap env (rm.resource.bind OtlpResource.attributes)))).map
      List.flatten

/-- `otlpToTimeSeries`: walk resource → scope → metric.  Iterating an
absent `resourceMetrics` list throws. -/
def otlpToTimeSeries (env : JsEnv) (p : OtlpMetricsPayload) :
    Except Unit (List TimeSeries) :=
  match p.resourceMetrics with
  | none => .error ()
  | some rms => (rms.mapM (convertResource env)).map List.flatten

/-! ### Schema engine — compilation and application -/

inductive LabelPattern where
  | strPat (s : Str)
  | rePat (re : JsRegExp)

/-- Evaluating the *original* label pattern on a value: a string pattern is
an exact match (`src/types/schema.ts`), a regular expression is `test`. -/
def patTest : LabelPattern → Str → Bool
  | .strPat s, v => decide (v = s)
  | .rePat re, v => re.test v

inductive FastMatcher where
  | any
  | exact (value : Str)
  | regex (re : JsRegExp)

/-- Characters the exact-literal recognizer refuses:
`. * + ? [ ] ( ) { } \ | ^ $`. -/
def reSpecialChar (c : Nat) : Bool :=
  c ∈ [46, 42, 43, 63, 91, 93, 40, 41, 123, 125, 92, 124, 94, 36]

/-- The source's `src.match(...)` recognizing `^literal$`: a leading `^`,
a trailing `$`, and a nonempty middle free of regex special characters
(the unique decomposition, since `^` and `$` are themselves special). -/
def exactInner (src : Str) : Option Str :=
  if 3 ≤ src.length ∧ src.head? = some 94 ∧ src.getLast? = some 36 ∧
      ((src.drop 1).dropLast.all (fun c => !reSpecialChar c)) = true then
    some ((src.drop 1).dropLast)
  else none

/-- `compileFastMatcher`: strings become equality checks; `.*` and `^.*$`
(any flags) downgrade to always-match; `^literal$` downgrades to equality;
everything else stays a regex. -/
def compileFastMatcher : LabelPattern → FastMatcher
  | .strPat s => .exact s
  | .rePat re =>
    if re.source = str (".*") ∨ re.source = str ("^.*$") then .any
    else
      match exactInner re.source with
      | some inner => .exact inner
      | none => .regex re

/-- `testFastMatcher`. -/
def testFastMatcher : FastMatcher → Str → Bool
  | .any, _ => true
  | .exact v, value => decide (value = v)
  | .regex re, value => re.test value

/-- `bsearchLabel`'s loop.  JS `lo`, `hi` are (signed) numbers — `hi` can
reach `-1` — so indices are `Int`; `(lo + hi) >>> 1` on the in-range
nonnegative values is floor division by 2; `labels[mid]!` is in range in
every reachable state (the default is never compared there). -/
def bsearchGo (labels : List Label) (name : Str) (lo hi : Int) : Int :=
  if lo ≤ hi then
    let mid := (lo + hi) / 2
    let n := (labels.getD mid.toNat (Label.mk [] [])).name
    if n = name then mid
    else if strLt n name then bsearchGo labels name (mid + 1) hi
    else bsearchGo labels name lo (mid - 1)
  else -1
termination_by (hi + 1 - lo).toNat
decreasing_by
  · have hlo : lo ≤ (lo + hi) / 2 := by
      have h2 : (2 : Int) * lo / 2 ≤ (lo + hi) / 2 :=
        Int.ediv_le_ediv (by norm_num) (by omega)
      rwa [Int.mul_ediv_cancel_left _ (by norm_num)] at h2
    omega
  · have hhi : (lo + hi) / 2 ≤ hi := by
      have h2 : (lo + hi) / 2 ≤ (2 : Int) * hi / 2 :=
        Int.ediv_le_ediv (by norm_num) (by omega)
      rwa [Int.mul_ediv_cancel_left _ (by norm_num)] at h2
    omega

/-- `bsearchLabel`: binary search over a sorted label list under ordinal
(`<`) string comparison; `-1` when absent. -/
def bsearchLabel (labels : List Label) (name : Str) : Int :=
  bsearchGo labels name 0 ((labels.length : Int) - 1)

/-- `CompiledSchema`: the `Map` of explicit matchers is an insertion-ordered
association list (`compileSchemas` builds it with unique keys). -/
structure CompiledSchema where
  namePattern : JsRegExp
  labelMatchers : List (Str × FastMatcher)
  wildcardMatcher : Option FastMatcher
  injectEntries : List (Str × Str)
  maxLabels : Option Nat

/-- The single pass over `ts.labels` in `applySchema`: `__name__` passes
through; an explicit matcher must accept the value or the whole pass
fails (`none`); unlisted labels are kept iff a wildcard accepts their
value; the second component counts explicit matchers seen. -/
def labelPass (schema : CompiledSchema) : List Label → Option (List Label × Nat)
  | [] => some ([], 0)
  | l :: rest =>
    if l.name = str ("__name__") then
      (labelPass schema rest).map (fun r => (l :: r.1, r.2))
    else
      match lookupRec schema.labelMatchers l.name with
      | some m =>
        if testFastMatcher m l.value then
          (labelPass schema rest).map (fun r => (l :: r.1, r.2 + 1))
        else none
      | none =>
        match schema.wildcardMatcher with
        | some w =>
          if testFastMatcher w l.value then
            (labelPass schema rest).map (fun r => (l :: r.1, r.2))
          else labelPass schema rest
        | none => labelPass schema rest

/-- The per-label keep/remove predicate of the pass (specification side):
`__name__` is kept; a label with an explicit matcher is kept (a failing
value has already aborted the pass); an unlisted label is kept iff a
wildcard matcher exists and accepts its value. -/
def keepPred (schema : CompiledSchema) (l : Label) : Bool :=
  decide (l.name = str ("__name__")) ||
    (lookupRec schema.labelMatchers l.name).isSome ||
    schema.wildcardMatcher.elim false (fun w => testFastMatcher w l.value)

/-- The seen-counter's per-label predicate (specification side): counts
the non-`__name__` labels that have an explicit matcher. -/
def seenPred (schema : CompiledSchema) (l : Label) : Bool :=
  !decide (l.name = str ("__name__")) && (lookupRec schema.labelMatchers l.name).isSome

/-- The re-sort comparator of `applySchema`:
`(a, b) => a.name < b.name ? -1 : a.name > b.name ? 1 : 0` under JS
ordinal string comparison, as a boolean `≤`. -/
def ordLabelLe (a b : Label) : Bool := !strLt b.name a.name

/-- The inject step: binary search the (still sorted) label list; found →
overwrite in place, missing → append. -/
def injectLabels (out : List Label) (entries : List (Str × Str)) : List Label :=
  entries.foldl (fun acc kv =>
    let idx := bsearchLabel acc kv.1
    if 0 ≤ idx then acc.set idx.toNat (Label.mk kv.1 kv.2)
    else acc ++ [Label.mk kv.1 kv.2]) out

/-- The `maxLabels` cap: splice out `__name__` (when present), sort, trim
to the cap, push `__name__` back, sort again. -/
def applyMaxLabels (out : List Label) (cap : Nat) : List Label :=
  match out.findIdx? (fun l => decide (l.name = str ("__name__"))) with
  | some i =>
    let nameLabel := out.getD i (Label.mk [] [])
    let rest := out.eraseIdx i
    (((rest.mergeSort ordLabelLe).take cap) ++ [nameLabel]).mergeSort ordLabelLe
  | none => ((out.mergeSort ordLabelLe).take cap).mergeSort ordLabelLe

/-- `applySchema`: label pass, presence check for all declared explicit
matchers, inject, optional cap, re-sort. -/
def applySchema (ts : TimeSeries) (schema : CompiledSchema) : Option TimeSeries :=
  match labelPass schema ts.labels with
  | none => none
  | some (out, seen) =>
    if seen < schema.labelMatchers.length then none
    else
      let injected := injectLabels out schema.injectEntries
      match schema.maxLabels with
      | some cap => some ⟨applyMaxLabels injected cap, ts.samples⟩
      | none => some ⟨injected.mergeSort ordLabelLe, ts.samples⟩

inductive DefaultAction where
  | pass
  | drop
deriving DecidableEq

/-- The metric-name resolution in `applySchemas`:
`ts.labels[bsearchLabel(ts.labels, '__name__')]?.value ?? ''`. -/
def resolveMetricName (ts : TimeSeries) : Str :=
  let idx := bsearchLabel ts.labels (str ("__name__"))
  if idx < 0 then [] else (ts.labels.getD idx.toNat (Label.mk [] [])).value

/-- `applySchemas`: per series, first matching schema wins; otherwise the
default action decides. -/
def applySchemas (series : List TimeSeries) (schemas : List CompiledSchema)
    (defaultAction : DefaultAction) : List TimeSeries :=
  series.filterMap (fun ts =>
    match schemas.find? (fun s => s.namePattern.test (resolveMetricName ts)) with
    | none => if defaultAction = .pass then some ts else none
    | some schema => applySchema ts schema)

/-! ### Pipeline orchestrator — `src/core/Pipeline.ts` -/

structure PipelineResult where
  status : Nat
  message : Str
deriving DecidableEq

inductive Selector where
  | star
  | strSel (s : Str)
  | reSel (re : JsRegExp)

structure LabelInjectionRule where
  selector : Selector
  labels : List (Str × Str)

def selectorMatches : Selector → Str → Bool
  | .star, _ => true
  | .strSel s, n => decide (s = n)
  | .reSel re, n => re.test n

/-- `applyRequestLabelInjections`: per series, a `Map` of its labels, the
metric name read before any mutation, matching rules applied in order,
then the entries re-sorted by `localeCompare`. -/
def applyRequestLabelInjections (env : JsEnv) (series : List TimeSeries)
    (injectRules : List LabelInjectionRule) : List TimeSeries :=
  if injectRules.isEmpty then series else
  series.map (fun ts =>
    let labelsMap := ts.labels.foldl (fun m l => recSet m l.name l.value) []
    let metricName := (lookupRec labelsMap (str ("__name__"))).getD []
    let finalMap := injectRules.foldl (fun m rule =>
      if selectorMatches rule.selector metricName then
        rule.labels.foldl (fun m2 kv => recSet m2 kv.1 kv.2) m
      else m) labelsMap
    { labels := (finalMap.map (fun p => Label.mk p.1 p.2)).mergeSort
        (fun a b => env.lcLe a.name b.name),
      samples := ts.samples })

/-- Outcome of the outbound `fetch`: a response (with `ok`, `status`,
`body`) or a thrown error / timeout with its message. -/
inductive FetchOutcome where
  | resp (ok : Bool) (status : Nat) (body : Str)
  | err (msg : Str)

/-- Decimal rendering of a JS number holding a natural (HTTP status
interpolation). -/
def natToStr (n : Nat) : Str := str (Nat.repr n)

/-- The transport-outcome mapping at the tail of `Pipeline.process`:
`response.ok` → 200 `OK`; non-ok → 502 with the interpolated message
truncated by `.slice(0, 500)`; a thrown error → 502 with
`'Remote write error: ' + msg` (no truncation in the source). -/
def transportResult : FetchOutcome → PipelineResult
  | .resp ok status body =>
    if ok then ⟨200, str ("OK")⟩
    else ⟨502, (str ("Remote write failed: HTTP ") ++ natToStr status ++ [32] ++ body).take 500⟩
  | .err msg => ⟨502, str ("Remote write error: ") ++ msg⟩

/-- `Pipeline.process` from the shape-validation step on (content-type
checking and JSON parsing precede it; the encode and compress steps only
feed the transport call, whose outcome is the `fetch` parameter): validate
`resourceMetrics` is a list (else 400), convert (a converter throw
propagates), apply schemas (or the bare default action), apply per-request
injections when rules exist, 204 on empty, otherwise the transport
outcome. -/
def processParsed (env : JsEnv) (schemas : List CompiledSchema) (defaultAction : DefaultAction)
    (rules : List LabelInjectionRule) (payload : OtlpMetricsPayload)
    (fetch : FetchOutcome) : Except Unit PipelineResult :=
  match payload.resourceMetrics with
  | none => .ok ⟨400, str ("Invalid OTLP payload: missing resourceMetrics")⟩
  | some _ =>
    match otlpToTimeSeries env payload with
    | .error e => .error e
    | .ok series0 =>
      let series1 :=
        if schemas.length > 0 then applySchemas series0 schemas defaultAction
        else if defaultAction = .drop then [] else series0
      let series2 :=
        if rules.length > 0 then applyRequestLabelInjections env series1 rules else series1
      if series2.isEmpty then .ok ⟨204, str ("No metrics after filtering")⟩
      else .ok (transportResult fetch)

/-! ### Compat ingest session — `IngestSession.push` / `normalizeRequest` -/

/-- A compat request as far as `push` observes it: an optional raw method
string, an optional content type, and the resolved body text. -/
structure CompatRequest where
  method : Option Str
  contentType : Option Str
  body : Str

structure NormalizedRequest where
  method : Option Str
  contentType : Str
  body : Str

/-- ASCII uppercasing (our method strings are ASCII; `toUpperCase` agrees
with this on them). -/
def toUpperAscii (s : Str) : Str :=
  s.map (fun c => if 97 ≤ c ∧ c ≤ 122 then c - 32 else c)

/-- `normalizeRequest` on a compat request: the method is uppercased when
present, the content type defaults to `application/json`. -/
def normalizeRequest (req : CompatRequest) : NormalizedRequest :=
  { method := req.method.map toUpperAscii,
    contentType := req.contentType.getD (str ("application/json")),
    body := req.body }

/-- `IngestSession.push`, parametric in the pipeline
(`process : body → contentType → result`): the guard
`normalized.method && normalized.method !== 'POST'` (JS truthiness: a
*nonempty* method string differing from `POST`) short-circuits to 405. -/
def pushResult (normalized : NormalizedRequest) (process : Str → Str → PipelineResult) :
    PipelineResult :=
  match normalized.method with
  | some m =>
    if m ≠ [] ∧ m ≠ str ("POST") then ⟨405, str ("Method Not Allowed")⟩
    else process normalized.body normalized.contentType
  | none => process normalized.body normalized.contentType

/-! Unfolding lemmas for the loop models (the well-founded definitions do
not reduce definitionally, so concrete evaluations go through these). -/

theorem writeIntVarintBytes_eq (value : Nat) :
    writeIntVarintBytes value =
      if value > 127 then
        (value % 128 + 128) :: writeIntVarintBytes (value % 2 ^ 32 / 128)
      else [value] := by
  rw [writeIntVarintBytes]

theorem writeIntVarintBytes_le (value : Nat) (h : value ≤ 127) :
    writeIntVarintBytes value = [value] := by
  rw [writeIntVarintBytes_eq, if_neg (by omega)]

theorem writeIntVarintBytes_gt (value : Nat) (h : 127 < value) :
    writeIntVarintBytes value =
      (value % 128 + 128) :: writeIntVarintBytes (value % 2 ^ 32 / 128) := by
  rw [writeIntVarintBytes_eq, if_pos h]

theorem writeVarintBytes_eq (value : Nat) :
    writeVarintBytes value =
      if value < 128 then [value]
      else (value % 128 + 128) :: writeVarintBytes (value / 128) := by
  rw [writeVarintBytes]

theorem writeVarintBytes_lt (value : Nat) (h : value < 128) :
    writeVarintBytes value = [value] := by
  rw [writeVarintBytes_eq, if_pos h]

theorem writeVarintBytes_ge (value : Nat) (h : 128 ≤ value) :
    writeVarintBytes value = (value % 128 + 128) :: writeVarintBytes (value / 128) := by
  rw [writeVarintBytes_eq, if_neg (by omega)]

theorem varintSizeGo_eq (value : Nat) :
    varintSizeGo value = if value = 0 then 0 else 1 + varintSizeGo (value / 128) := by
  rw [varintSizeGo]

theorem varintSizeGo_zero : varintSizeGo 0 = 0 := by
  rw [varintSizeGo_eq]; simp

theorem varintSizeGo_pos (value : Nat) (h : value ≠ 0) :
    varintSizeGo value = 1 + varintSizeGo (value / 128) := by
  rw [varintSizeGo_eq, if_neg h]

/-- Below `2 ^ 32` the fast path agrees with the BigInt path byte for
byte (the `% 2 ^ 32` reduction is the identity there). -/
theorem writeIntVarintBytes_eq_writeVarintBytes (n : Nat) (h : n < 2 ^ 32) :
    writeIntVarintBytes n = writeVarintBytes n := by
  induction n using Nat.strong_induction_on with
  | _ n ih =>
    rw [writeIntVarintBytes_eq, writeVarintBytes_eq]
    by_cases h127 : n > 127
    · have hme : n % 2 ^ 32 = n := Nat.mod_eq_of_lt h
      have hlt : n / 128 < n := Nat.div_lt_self (by omega) (by omega)
      have h32 : n / 128 < 2 ^ 32 := lt_of_le_of_lt (Nat.div_le_self _ _) h
      simp only [h127, if_true, hme]
      rw [if_neg (by omega), ih (n / 128) hlt h32]
    · simp [h127, show n < 128 by omega]

/-! ### Wire encoder — `src/proto/writeRequest.ts` -/

namespace Wire

/-- A label on the wire side: UTF-8 byte strings for name and value
(`Buffer.byteLength` and `TextEncoder.encodeInto` both act on the UTF-8
image, so we carry the bytes directly). -/
structure Label where
  name : Str
  value : Str
deriving DecidableEq

/-- A sample on the wire side: the double is carried as its 8-byte
little-endian IEEE-754 image (the encoder copies those bytes and never
inspects the value), the timestamp as a nonnegative integer of
milliseconds. -/
structure Sample where
  value : { l : List Nat // l.length = 8 }
  timestamp : Nat
deriving DecidableEq

structure TimeSeries where
  labels : List Label
  samples : List Sample
deriving DecidableEq

structure WriteRequest where
  timeseries : List TimeSeries
deriving DecidableEq

/-- `tsSize`: fast integer-varint size when the timestamp fits the JS safe
integer range, BigInt-safe size otherwise. -/
def tsSize (ts : Nat) : Nat :=
  if ts ≤ 9007199254740991 then intVarintSize ts else varintSize ts

/-- `labelMsgSize`: tag + length varint + payload for both string fields. -/
def labelMsgSize (l : Label) : Nat :=
  1 + intVarintSize l.name.length + l.name.length +
    (1 + intVarintSize l.value.length + l.value.length)

/-- `sampleMsgSize`: 9 bytes for the fixed64 value field, 1 tag byte plus a
varint for the timestamp. -/
def sampleMsgSize (s : Sample) : Nat :=
  9 + 1 + tsSize s.timestamp

/-- `timeSeriesMsgSize`: sum over nested label and sample messages, each
with its tag and length prefix. -/
def timeSeriesMsgSize (t : TimeSeries) : Nat :=
  (t.labels.map (fun l => 1 + intVarintSize (labelMsgSize l) + labelMsgSize l)).sum +
    (t.samples.map (fun s => 1 + intVarintSize (sampleMsgSize s) + sampleMsgSize s)).sum

/-- `computeTotalSize` — pass 1. -/
def computeTotalSize (req : WriteRequest) : Nat :=
  (req.timeseries.map (fun t => 1 + intVarintSize (timeSeriesMsgSize t) + timeSeriesMsgSize t)).sum

/-- Timestamp bytes written by `writeSample`: fast path when within the JS
safe integer range, BigInt path otherwise — the same split as `tsSize`. -/
def writeTimestampBytes (ts : Nat) : List Nat :=
  if ts ≤ 9007199254740991 then writeIntVarintBytes ts else writeVarintBytes ts

/-- Bytes emitted by `writeLabel` — pass 2 writes sequentially at tracked
offsets, so the byte stream is the concatenation of the individual
writes. -/
def writeLabelBytes (l : Label) : List Nat :=
  10 :: (writeIntVarintBytes l.name.length ++ l.name ++
    18 :: (writeIntVarintBytes l.value.length ++ l.value))

/-- Bytes emitted by `writeSample`. -/
def writeSampleBytes (s : Sample) : List Nat :=
  9 :: (s.value.val ++ 16 :: writeTimestampBytes s.timestamp)

/-- Bytes emitted by `writeTimeSeries`: each nested message is preceded by
its tag and by the length computed by the *size* functions of pass 1. -/
def writeTimeSeriesBytes (t : TimeSeries) : List Nat :=
  t.labels.flatMap (fun l =>
      10 :: (writeIntVarintBytes (labelMsgSize l) ++ writeLabelBytes l)) ++
    t.samples.flatMap (fun s =>
      18 :: (writeIntVarintBytes (sampleMsgSize s) ++ writeSampleBytes s))

/-- Byte stream written by `encodeWriteRequest` — pass 2.  The function
allocates a buffer of `computeTotalSize` bytes and then writes this stream
into it from offset 0; the stream length is the final offset, so the claim
“the write pass fills the buffer completely” is the statement that this
stream has length `computeTotalSize req`. -/
def encodeWriteRequest (req : WriteRequest) : List Nat :=
  if req.timeseries.isEmpty then [] else
    req.timeseries.flatMap (fun t =>
      10 :: (writeIntVarintBytes (timeSeriesMsgSize t) ++ writeTimeSeriesBytes t))

end Wire

/-! ### Concrete instances used by evaluations and witnesses -/

/-- A series whose sample timestamp is `2 ^ 32` ms (about 50 days after
the epoch — well below every present-day timestamp, all of which also
exceed `2 ^ 32`). -/
def c1Label : Wire.Label := ⟨str ("__name__"), str ("m")⟩

def c1Sample : Wire.Sample := ⟨⟨[0, 0, 0, 0, 0, 0, 0, 0], rfl⟩, 4294967296⟩

def c1Ts : Wire.TimeSeries := ⟨[c1Label], [c1Sample]⟩

def c1Req : Wire.WriteRequest := ⟨[c1Ts]⟩

/-- A concrete runtime environment: ordinal `localeCompare`, trivial
number renderings, epoch clock.  (Counterexamples instantiated at it are
comparator-specific only where the compared facts are
permutation-invariant anyway.) -/
def env0 : JsEnv := ⟨fun a b => strLe a b, fun _ => [], fun _ => [], 0⟩

/-- One gauge metric, one data point, no attributes. -/
def gaugeDp : OtlpNumberDataPoint := ⟨none, some 1700000000000000000, some 1, none⟩

def gaugeMetric : OtlpMetric := ⟨str ("test_metric"), some [gaugeDp], none, none⟩

def payload1 : OtlpMetricsPayload := ⟨some [⟨none, some [⟨some [gaugeMetric]⟩]⟩]⟩

/-- A payload whose single resource entry has no `scopeMetrics` list. -/
def payloadNoScope : OtlpMetricsPayload := ⟨some [⟨none, none⟩]⟩

/-- A 500-character error message (`'a'` × 500). -/
def errMsg500 : Str := List.replicate 500 97

/-- The JS regular expression `/^.*$/` with no flags: `^` and `$` anchor
to the ends of the input (no `m` flag) and `.` matches every character
except a line terminator (`\n`, `\r`, U+2028, U+2029; no `s` flag), so
`test` accepts exactly the strings containing no line terminator. -/
def dotStarAnchored : JsRegExp :=
  ⟨str ("^.*$"), [], fun v => !(v.any (fun c => c ∈ [10, 13, 8232, 8233]))⟩

/-- The JS regular expression `/^up$/` with no flags: `test` accepts
exactly the literal `up`. -/
def reUp : JsRegExp := ⟨str ("^up$"), [], fun v => decide (v = str ("up"))⟩

/-- A compiled schema that declares an explicit matcher for the key
`__name__` itself (matching any value) — `compileSchemas` produces this
from `labels: { __name__: /.*/ }`. -/
def schemaNameMatcher : CompiledSchema :=
  ⟨⟨[], [], fun _ => true⟩, [(str ("__name__"), FastMatcher.any)], none, [], none⟩

/-- A series with only its `__name__` label. -/
def tsSimple : TimeSeries := ⟨[⟨str ("__name__"), str ("m")⟩], [⟨1, 0⟩]⟩

/-- A gauge data point carrying an attribute literally named `__name__`. -/
def dupNameDp : OtlpNumberDataPoint :=
  ⟨some [⟨str ("__name__"), .strV (str ("x"))⟩], some 0, some 1, none⟩

def payloadDupName : OtlpMetricsPayload :=
  ⟨some [⟨none, some [⟨some [⟨str ("m2"), some [dupNameDp], none, none⟩]⟩]⟩]⟩

/-! Predicates stating that no attribute key in a payload is the reserved
label name `__name__` (the condition the duplicate-`__name__`
counterexample forces on the series invariants). -/

def attrsNoNameKey (attrs : Option (List OtlpKeyValue)) : Prop :=
  ∀ l, attrs = some l → ∀ kv ∈ l, kv.key ≠ str ("__name__")

def metricNoNameKey (m : OtlpMetric) : Prop :=
  (∀ dps, m.gauge = some dps → ∀ dp ∈ dps, attrsNoNameKey dp.attributes) ∧
  (∀ dps, m.sum = some dps → ∀ dp ∈ dps, attrsNoNameKey dp.attributes) ∧
  (∀ dps, m.histogram = some dps → ∀ dp ∈ dps, attrsNoNameKey dp.attributes)

def payloadNoNameKey (p : OtlpMetricsPayload) : Prop :=
  ∀ rms, p.resourceMetrics = some rms → ∀ rm ∈ rms,
    attrsNoNameKey (rm.resource.bind OtlpResource.attributes) ∧
    (∀ sms, rm.scopeMetrics = some sms → ∀ sm ∈ sms,
      ∀ ms, sm.metrics = some ms → ∀ m ∈ ms, metricNoNameKey m)

/-- The anchored-literal regular expression `/^foo$/` (no flags). -/
def reFoo : JsRegExp := ⟨str ("^foo$"), [], fun v => decide (v = str ("foo"))⟩

/-- A compiled schema matching the metric name `foo` with no label rules. -/
def schemaFoo : CompiledSchema := ⟨reFoo, [], none, [], none⟩

/-- A series named `foo` with one extra label, sorted by ordinal name. -/
def tsFoo : TimeSeries :=
  ⟨[⟨str ("__name__"), str ("foo")⟩, ⟨str ("env"), str ("prod")⟩], [⟨1, 0⟩]⟩

/-- A compiled schema requiring label `env` to equal `prod`, no wildcard. -/
def schemaEnvProd : CompiledSchema :=
  ⟨reFoo, [(str ("env"), FastMatcher.exact (str ("prod")))], none, [], none⟩

/-- The histogram data point of the spec's worked example: bounds
`[10, 50, 100]`, bucket counts `[2, 3, 4, 1]`, count 10, sum 25. -/
def histDp : OtlpHistogramDataPoint :=
  ⟨none, some 0, some 10, some 25, some [2, 3, 4, 1], some [10, 50, 100]⟩

/-! ### C2 — fast-path / BigInt-path varint agreement -/

/-- C2: the claim states that for every non-negative integer in the range
shared by the two paths (the encoder uses the fast path for every
timestamp up to `2 ^ 53 - 1`), `writeIntVarint` produces the same bytes
as `writeVarint` and `intVarintSize` equals `varintSize`.  At `2 ^ 32`
(inside the shared range, last conjunct) the fast path emits the 2-byte
encoding of `2 ^ 32 mod 2 ^ 32 = 0` instead of the correct 5-byte
encoding, and at `2 ^ 35` the size functions disagree (5 vs 6). -/
theorem c2_fast_slow_divergence :
    writeIntVarintBytes 4294967296 = [128, 0] ∧
    writeVarintBytes 4294967296 = [128, 128, 128, 128, 16] ∧
    intVarintSize 34359738368 = 5 ∧
    varintSize 34359738368 = 6 ∧
    (34359738368 : Nat) ≤ 9007199254740991 := by
  refine ⟨?_, ?_, by decide, ?_, by norm_num⟩
  · rw [writeIntVarintBytes_gt _ (by norm_num)]
    norm_num
    rw [writeIntVarintBytes_le _ (by norm_num)]
  · rw [writeVarintBytes_ge _ (by norm_num)]
    norm_num
    rw [writeVarintBytes_ge _ (by norm_num)]
    norm_num
    rw [writeVarintBytes_ge _ (by norm_num)]
    norm_num
    rw [writeVarintBytes_ge _ (by norm_num)]
    norm_num
    rw [writeVarintBytes_lt _ (by norm_num)]
  · rw [varintSize, if_neg (by norm_num)]
    rw [varintSizeGo_pos _ (by norm_num)]
    norm_num
    rw [varintSizeGo_pos _ (by norm_num)]
    norm_num
    rw [varintSizeGo_pos _ (by norm_num)]
    norm_num
    rw [varintSizeGo_pos _ (by norm_num)]
    norm_num
    rw [varintSizeGo_pos _ (by norm_num)]
    norm_num
    rw [varintSizeGo_pos _ (by norm_num)]
    norm_num
    rw [varintSizeGo_zero]

/-! ### C1 — two-pass encoder size agreement -/

/-- C1: the claim states that pass 1 (`computeTotalSize`) always equals
the byte count pass 2 actually writes.  The zero-series short-circuit
holds (third conjunct), but at the request `c1Req`, whose only sample
carries the timestamp `2 ^ 32` ms, pass 1 reserves 34 bytes while pass 2
writes only 31, leaving a 3-byte unwritten tail in the allocated
buffer. -/
theorem c1_size_vs_write_mismatch :
    Wire.computeTotalSize c1Req = 34 ∧
    (Wire.encodeWriteRequest c1Req).length = 31 ∧
    Wire.encodeWriteRequest ⟨[]⟩ = [] := by
  have hts : Wire.writeTimestampBytes 4294967296 = [128, 0] := by
    rw [Wire.writeTimestampBytes, if_pos (by norm_num)]
    rw [writeIntVarintBytes_gt _ (by norm_num)]
    norm_num
    rw [writeIntVarintBytes_le _ (by norm_num)]
  refine ⟨by decide, ?_, by decide⟩
  have h1 : writeIntVarintBytes 1 = [1] := writeIntVarintBytes_le _ (by norm_num)
  have h8 : writeIntVarintBytes 8 = [8] := writeIntVarintBytes_le _ (by norm_num)
  have h13 : writeIntVarintBytes 13 = [13] := writeIntVarintBytes_le _ (by norm_num)
  have h15 : writeIntVarintBytes 15 = [15] := writeIntVarintBytes_le _ (by norm_num)
  have h32 : writeIntVarintBytes 32 = [32] := writeIntVarintBytes_le _ (by norm_num)
  simp [Wire.encodeWriteRequest, c1Req, c1Ts, c1Label, c1Sample,
    Wire.writeTimeSeriesBytes, Wire.writeLabelBytes, Wire.writeSampleBytes,
    Wire.timeSeriesMsgSize, Wire.labelMsgSize, Wire.sampleMsgSize, Wire.tsSize,
    intVarintSize, str, hts, h1, h8, h13, h15, h32]

/-! ### C10 — non-POST methods short-circuit to 405 -/

/-- C10: for every compat request whose normalized (uppercased) method is
present (a nonempty string, per the JS truthiness guard) and differs from
`POST`, `IngestSession.push` answers `405 Method Not Allowed` for *every*
pipeline — i.e. without invoking `Pipeline.process` — and 405 lies outside
the `{200, 204, 400, 415, 502}` result contract. -/
theorem push_405_short_circuit (req : CompatRequest) (m : Str)
    (hm : (normalizeRequest req).method = some m)
    (hne : m ≠ []) (hnp : m ≠ str ("POST")) :
    (∀ process : Str → Str → PipelineResult,
      pushResult (normalizeRequest req) process = ⟨405, str ("Method Not Allowed")⟩) ∧
    (normalizeRequest req).method = req.method.map toUpperAscii ∧
    (405 : Nat) ∉ [200, 204, 400, 415, 502] := by
  refine ⟨fun process => ?_, rfl, by decide⟩
  simp only [pushResult, hm]
  rw [if_pos ⟨hne, hnp⟩]

/-- C10 witness: a compat request with raw method `get` normalizes to
`GET` and is answered 405 regardless of the pipeline. -/
theorem push_405_short_circuit_witness :
    pushResult (normalizeRequest ⟨some (str ("get")), none, []⟩)
      (fun _ _ => ⟨200, str ("OK")⟩) = ⟨405, str ("Method Not Allowed")⟩ :=
  (push_405_short_circuit ⟨some (str ("get")), none, []⟩ (str ("GET"))
    (by decide) (by decide) (by decide)).1 _

/-! ### C8 — transport failures map to 502 with a truncated message -/

set_option maxRecDepth 4000 in
/-- C8 counterexample: the claim bounds every 502 diagnostic by 500
characters, but the thrown-error branch of `Pipeline.process` does not
truncate: at `payload1` with a 500-character error message the resulting
502 message has length 520. -/
theorem transport_error_message_unbounded :
    processParsed env0 [] .pass [] payload1 (.err errMsg500) =
      .ok ⟨502, str ("Remote write error: ") ++ errMsg500⟩ ∧
    (str ("Remote write error: ") ++ errMsg500).length = 520 := by
  have hbl : buildLabels env0 (str ("test_metric")) [] =
      [⟨str ("__name__"), str ("test_metric")⟩] := by
    simp [buildLabels]
  have hconv : otlpToTimeSeries env0 payload1 =
      .ok [⟨[⟨str ("__name__"), str ("test_metric")⟩], [⟨1, 1700000000000⟩]⟩] := by
    rw [show otlpToTimeSeries env0 payload1 =
      .ok [⟨buildLabels env0 (str ("test_metric")) [], [⟨1, 1700000000000⟩]⟩] from rfl, hbl]
  have hrm : payload1.resourceMetrics = some [⟨none, some [⟨some [gaugeMetric]⟩]⟩] := rfl
  constructor
  · simp [processParsed, hrm, hconv, transportResult]
  · decide

/-- C8 amended: every transport failure (non-success response or thrown
error/timeout) yields status 502; the non-success-response message is
truncated to at most 500 characters, but the thrown-error message is
`'Remote write error: ' + msg` — 20 characters plus the raw message,
unbounded. -/
theorem transport_failure_502 (outcome : FetchOutcome)
    (hfail : ∀ status body, outcome ≠ FetchOutcome.resp true status body) :
    (transportResult outcome).status = 502 ∧
    (∀ ok status body, outcome = FetchOutcome.resp ok status body →
      (transportResult outcome).message.length ≤ 500) ∧
    (∀ msg, outcome = FetchOutcome.err msg →
      (transportResult outcome).message.length = 20 + msg.length) := by
  rcases outcome with ⟨ok, status, body⟩ | msg
  · cases ok with
    | true => exact absurd rfl (hfail status body)
    | false =>
      refine ⟨rfl, ?_, ?_⟩
      · intro _ _ _ _
        simp [transportResult]
      · intro _ h
        cases h
  · refine ⟨rfl, ?_, ?_⟩
    · intro _ _ _ h
      cases h
    · intro msg2 h
      have h20 : (str ("Remote write error: ")).length = 20 := by decide
      injection h with h2
      subst h2
      simp [transportResult, h20]

/-- C8 witness: a thrown error with a one-character message yields 502
with a 21-character message. -/
theorem transport_failure_502_witness :
    (transportResult (.err [97])).status = 502 ∧
    (transportResult (.err [97])).message.length = 20 + 1 :=
  ⟨(transport_failure_502 (.err [97]) (fun _ _ h => by cases h)).1,
   (transport_failure_502 (.err [97]) (fun _ _ h => by cases h)).2.2 [97] rfl⟩

/-! ### C9 — missing nesting lists -/

/-- C9 counterexample: the claim says an absent `scopeMetrics` list is
treated as empty without error, but the converter throws on it (and
`Pipeline.process` propagates the throw instead of producing a result). -/
theorem missing_scopeMetrics_throws :
    otlpToTimeSeries env0 payloadNoScope = .error () ∧
    processParsed env0 [] .pass [] payloadNoScope (.err []) = .error () := by
  constructor <;> rfl

/-- Helper: `mapM` over `Except Unit` fails when any element does. -/
theorem mapM_except_error {α β : Type} (f : α → Except Unit β) (l : List α) (a : α)
    (ha : a ∈ l) (he : f a = .error ()) : l.mapM f = .error () := by
  induction l with
  | nil => cases ha
  | cons hd tl ih =>
    rw [List.mapM_cons]
    cases hf : f hd with
    | error e =>
      cases e
      rfl
    | ok b =>
      rcases List.mem_cons.mp ha with rfl | hmem
      · rw [hf] at he; cases he
      · rw [show (Except.ok b >>= fun b2 => List.mapM f tl >>= fun bs => pure (b2 :: bs) :
            Except Unit (List β)) = List.mapM f tl >>= fun bs => pure (b :: bs) from rfl]
        rw [ih hmem]
        rfl

/-- Helper: `mapM` over `Except` succeeds when every element does. -/
theorem mapM_except_ok {α β : Type} (f : α → Except Unit β) :
    ∀ l : List α, (∀ a ∈ l, ∃ b, f a = .ok b) → ∃ bs, l.mapM f = .ok bs := by
  intro l
  induction l with
  | nil => exact fun _ => ⟨[], rfl⟩
  | cons a rest ih =>
    intro h
    obtain ⟨b, hb⟩ := h a (by simp)
    obtain ⟨bs, hbs⟩ := ih (fun x hx => h x (by simp [hx]))
    refine ⟨b :: bs, ?_⟩
    rw [List.mapM_cons, hb]
    rw [show (Except.ok b >>= fun b2 => List.mapM f rest >>= fun bs2 => pure (b2 :: bs2) :
        Except Unit (List β)) = List.mapM f rest >>= fun bs2 => pure (b :: bs2) from rfl]
    rw [hbs]
    rfl

/-- C9 amended: an absent `resourceMetrics` is rejected by
`Pipeline.process` with status 400 before the converter runs (and the
converter itself would throw on it); an absent `scopeMetrics` or
`metrics` list makes `otlpToTimeSeries` throw rather than be treated as
empty; when all three list levels are present the converter returns a
series list without error. -/
theorem missing_lists_behaviour (env : JsEnv) (p : OtlpMetricsPayload)
    (schemas : List CompiledSchema) (da : DefaultAction)
    (rules : List LabelInjectionRule) (fetch : FetchOutcome) :
    (p.resourceMetrics = none →
      processParsed env schemas da rules p fetch =
        .ok ⟨400, str ("Invalid OTLP payload: missing resourceMetrics")⟩ ∧
      otlpToTimeSeries env p = .error ()) ∧
    (∀ rms, p.resourceMetrics = some rms →
      (∀ rm ∈ rms, ∃ sms, rm.scopeMetrics = some sms ∧
        ∀ sm ∈ sms, ∃ ms, sm.metrics = some ms) →
      ∃ series, otlpToTimeSeries env p = .ok series) ∧
    (∀ rms rm, p.resourceMetrics = some rms → rm ∈ rms → rm.scopeMetrics = none →
      otlpToTimeSeries env p = .error ()) := by
  refine ⟨fun hnone => ⟨?_, ?_⟩, fun rms hsome hall => ?_, fun rms rm hsome hmem hnone => ?_⟩
  · simp [processParsed, hnone]
  · simp [otlpToTimeSeries, hnone]
  · have h : ∀ rm ∈ rms, ∃ bs, convertResource env rm = .ok bs := by
      intro rm hrm
      obtain ⟨sms, hsms, hins⟩ := hall rm hrm
      have h2 : ∀ sm ∈ sms, ∃ cs,
          convertScope env (attrsToMap env (rm.resource.bind OtlpResource.attributes)) sm =
            .ok cs := by
        intro sm hsm
        obtain ⟨ms, hms⟩ := hins sm hsm
        refine ⟨ms.flatMap
          (convertMetric env (attrsToMap env (rm.resource.bind OtlpResource.attributes))), ?_⟩
        simp only [convertScope, hms]
      obtain ⟨bss, hbss⟩ := mapM_except_ok _ sms h2
      refine ⟨bss.flatten, ?_⟩
      have hcr : convertResource env rm =
          (sms.mapM (convertScope env
            (attrsToMap env (rm.resource.bind OtlpResource.attributes)))).map List.flatten := by
        simp only [convertResource, hsms]
      rw [hcr, hbss]
      rfl
    obtain ⟨bs, hbs⟩ := mapM_except_ok _ rms h
    have hot : otlpToTimeSeries env p = (rms.mapM (convertResource env)).map List.flatten := by
      simp only [otlpToTimeSeries, hsome]
    refine ⟨bs.flatten, ?_⟩
    rw [hot, hbs]
    rfl
  · have herr : convertResource env rm = .error () := by
      simp [convertResource, hnone]
    simp only [otlpToTimeSeries, hsome, mapM_except_error _ rms rm hmem herr]
    rfl

/-- C9 witness. -/
theorem missing_lists_behaviour_witness :
    processParsed env0 [] .pass [] ⟨none⟩ (.err []) =
      .ok ⟨400, str ("Invalid OTLP payload: missing resourceMetrics")⟩ ∧
    otlpToTimeSeries env0 ⟨none⟩ = .error () ∧
    otlpToTimeSeries env0 payloadNoScope = .error () := by
  refine ⟨((missing_lists_behaviour env0 ⟨none⟩ [] .pass [] (.err [])).1 rfl).1,
    ((missing_lists_behaviour env0 ⟨none⟩ [] .pass [] (.err [])).1 rfl).2,
    (missing_lists_behaviour env0 payloadNoScope [] .pass [] (.err [])).2.2
      [⟨none, none⟩] ⟨none, none⟩ rfl (by simp [payloadNoScope]) rfl⟩

/-! ### C7 — FastMatcher downgrade transparency -/

/-- C7 counterexample: `compileFastMatcher` downgrades `/^.*$/` to the
always-true matcher, but evaluating the original flagless pattern on the
one-character string `"\n"` is false (no `m` flag: `$` anchors to the end
of input and `.` does not match a line terminator). -/
theorem fastmatcher_dotstar_divergence :
    testFastMatcher (compileFastMatcher (.rePat dotStarAnchored)) [10] = true ∧
    patTest (.rePat dotStarAnchored) [10] = false := by
  constructor <;> rfl

/-- C7 amended: the downgrade is transparent for string patterns and for
regular expressions whose runtime `test` agrees with the standard
flagless semantics of the recognized sources (`.*` always matches; an
anchored literal `^lit$` matches exactly `lit`), *except* that a pattern
with source `^.*$` is downgraded to always-match although it rejects
values containing line terminators — the equivalence there additionally
needs the value to be accepted by the original pattern (equivalently, to
contain no line terminator).  With flags (`i`, `m`, `s`, …) the downgrade
can change behaviour as well, which the semantic hypotheses exclude. -/
theorem fastmatcher_transparent (p : LabelPattern) (v : Str)
    (hAny : ∀ re, p = .rePat re → re.source = str (".*") → ∀ w, re.test w = true)
    (hLit : ∀ re inner, p = .rePat re → exactInner re.source = some inner →
      ∀ w, re.test w = decide (w = inner))
    (hDotStar : ∀ re, p = .rePat re → re.source = str ("^.*$") → re.test v = true) :
    testFastMatcher (compileFastMatcher p) v = patTest p v := by
  cases p with
  | strPat s => rfl
  | rePat re =>
    simp only [compileFastMatcher, patTest]
    by_cases hsrc : re.source = str (".*") ∨ re.source = str ("^.*$")
    · rw [if_pos hsrc]
      rcases hsrc with h | h
      · simp [testFastMatcher, hAny re rfl h v]
      · simp [testFastMatcher, hDotStar re rfl h]
    · rw [if_neg hsrc]
      cases hEI : exactInner re.source with
      | some inner => simp [testFastMatcher, hLit re inner rfl hEI v]
      | none => rfl

/-- C7 witness: the anchored literal `/^up$/` (no flags) is downgraded to
an equality check that agrees with the original pattern on `"up"`. -/
theorem fastmatcher_transparent_witness :
    testFastMatcher (compileFastMatcher (.rePat reUp)) (str ("up")) =
      patTest (.rePat reUp) (str ("up")) :=
  fastmatcher_transparent (.rePat reUp) (str ("up"))
    (by intro re h hsrc; cases h; exact absurd hsrc (by decide))
    (by
      intro re inner h hEI
      cases h
      have : inner = str ("up") := by
        have hx : exactInner (str ("^up$")) = some (str ("up")) := by decide
        rw [show reUp.source = str ("^up$") from rfl] at hEI
        rw [hx] at hEI
        exact (Option.some_injective _ hEI).symm
      subst this
      intro w
      rfl)
    (by intro re h hsrc; cases h; exact absurd hsrc (by decide))

/-! ### The ordinal string order `strLt` is a strict total order -/

theorem strLt_cons_iff (x y : Nat) (xs ys : Str) :
    strLt (x :: xs) (y :: ys) = true ↔ x < y ∨ (x = y ∧ strLt xs ys = true) := by
  simp only [strLt]
  split_ifs with h1 h2
  · simp [h1]
  · constructor
    · intro h
      simp at h
    · rintro (h | ⟨h, _⟩) <;> omega
  · have hxy : x = y := by omega
    subst hxy
    simp

theorem strLt_irrefl : ∀ a : Str, strLt a a = false := by
  intro a
  induction a with
  | nil => rfl
  | cons x xs ih => simp [strLt, ih]

theorem strLt_trans : ∀ a b c : Str, strLt a b = true → strLt b c = true → strLt a c = true := by
  intro a
  induction a with
  | nil =>
    intro b c hab hbc
    cases b with
    | nil => simp [strLt] at hab
    | cons y ys =>
      cases c with
      | nil => simp [strLt] at hbc
      | cons z zs => simp [strLt]
  | cons x xs ih =>
    intro b c hab hbc
    cases b with
    | nil => simp [strLt] at hab
    | cons y ys =>
      cases c with
      | nil => simp [strLt] at hbc
      | cons z zs =>
        rw [strLt_cons_iff] at hab hbc ⊢
        rcases hab with h1 | ⟨h1, h1s⟩
        · rcases hbc with h2 | ⟨h2, h2s⟩
          · exact Or.inl (by omega)
          · exact Or.inl (by omega)
        · rcases hbc with h2 | ⟨h2, h2s⟩
          · exact Or.inl (by omega)
          · exact Or.inr ⟨by omega, ih ys zs h1s h2s⟩

theorem strLt_connex : ∀ a b : Str, a ≠ b → strLt a b = true ∨ strLt b a = true := by
  intro a
  induction a with
  | nil =>
    intro b hab
    cases b with
    | nil => exact absurd rfl hab
    | cons y ys => exact Or.inl rfl
  | cons x xs ih =>
    intro b hab
    cases b with
    | nil => exact Or.inr rfl
    | cons y ys =>
      by_cases hxy : x = y
      · subst hxy
        have hxs : xs ≠ ys := fun h => hab (by rw [h])
        rcases ih ys hxs with h | h
        · exact Or.inl ((strLt_cons_iff x x xs ys).mpr (Or.inr ⟨rfl, h⟩))
        · exact Or.inr ((strLt_cons_iff x x ys xs).mpr (Or.inr ⟨rfl, h⟩))
      · by_cases hlt : x < y
        · exact Or.inl ((strLt_cons_iff x y xs ys).mpr (Or.inl hlt))
        · exact Or.inr ((strLt_cons_iff y x ys xs).mpr (Or.inl (by omega)))

theorem strLt_asymm (a b : Str) (h : strLt a b = true) : strLt b a = false := by
  by_contra hc
  rw [Bool.not_eq_false] at hc
  have h2 := strLt_trans a b a h hc
  rw [strLt_irrefl] at h2
  simp at h2

theorem strLt_or_of_strLt (a b c : Str) (h : strLt a b = true) :
    strLt a c = true ∨ strLt c b = true := by
  by_cases hcb : c = b
  · subst hcb
    exact Or.inl h
  · rcases strLt_connex c b hcb with h2 | h2
    · exact Or.inr h2
    · exact Or.inl (strLt_trans a b c h h2)

theorem strLe_total (a b : Str) : (strLe a b || strLe b a) = true := by
  rw [Bool.or_eq_true]
  by_cases h : strLt b a = true
  · right
    simp [strLe, strLt_asymm b a h]
  · left
    simp only [strLe, Bool.not_eq_true]
    rw [Bool.not_eq_true] at h
    rw [h]
    rfl

theorem strLe_trans (a b c : Str) (h1 : strLe a b = true) (h2 : strLe b c = true) :
    strLe a c = true := by
  simp only [strLe, Bool.not_eq_true'] at h1 h2 ⊢
  by_contra hc
  rw [Bool.not_eq_false] at hc
  rcases strLt_or_of_strLt c a b hc with h | h
  · rw [h] at h2
    simp at h2
  · rw [h] at h1
    simp at h1

/-! ### `Except`/`mapM` inversion helpers -/

theorem except_bind_ok {α β : Type} {x : Except Unit α} {f : α → Except Unit β} {b : β}
    (h : x >>= f = .ok b) : ∃ a, x = .ok a ∧ f a = .ok b := by
  cases x with
  | error e => exact Except.noConfusion h
  | ok a => exact ⟨a, rfl, h⟩

theorem mem_of_mapM_ok {α β : Type} (f : α → Except Unit β) :
    ∀ (l : List α) (bs : List β), l.mapM f = .ok bs → ∀ b ∈ bs, ∃ a ∈ l, f a = .ok b := by
  intro l
  induction l with
  | nil =>
    intro bs h b hb
    have : bs = [] := by
      have h2 : (Except.ok [] : Except Unit (List β)) = .ok bs := h
      exact (Except.ok.inj h2).symm
    subst this
    cases hb
  | cons hd tl ih =>
    intro bs h b hb
    rw [List.mapM_cons] at h
    obtain ⟨c, hc, h2⟩ := except_bind_ok h
    obtain ⟨cs, hcs, h3⟩ := except_bind_ok h2
    have hbs : bs = c :: cs := (Except.ok.inj h3).symm
    subst hbs
    rcases List.mem_cons.mp hb with rfl | hmem
    · exact ⟨hd, by simp, hc⟩
    · obtain ⟨a, ha, hfa⟩ := ih cs hcs b hmem
      exact ⟨a, by simp [ha], hfa⟩

/-! ### Helper lemmas on the JS-object model and `buildLabels` -/

theorem map_fst_recSet {α : Type} (m : List (Str × α)) (k : Str) (v : α) :
    (recSet m k v).map Prod.fst =
      if k ∈ m.map Prod.fst then m.map Prod.fst else m.map Prod.fst ++ [k] := by
  unfold recSet
  by_cases h : k ∈ m.map Prod.fst
  · have hany : m.any (fun p => decide (p.1 = k)) = true := by
      rw [List.any_eq_true]
      obtain ⟨p, hp, hpk⟩ := List.mem_map.mp h
      exact ⟨p, hp, by simp [hpk]⟩
    rw [if_pos hany, if_pos h, List.map_map]
    apply List.map_congr_left
    intro p _
    by_cases hpk : p.1 = k
    · simp [hpk]
    · simp [hpk]
  · have hany : m.any (fun p => decide (p.1 = k)) = false := by
      rw [List.any_eq_false]
      intro p hp
      simp only [decide_eq_true_eq]
      intro hpk
      exact h (List.mem_map.mpr ⟨p, hp, hpk⟩)
    rw [hany, if_neg h]
    simp

theorem nodup_map_fst_recSet {α : Type} (m : List (Str × α)) (k : Str) (v : α)
    (h : (m.map Prod.fst).Nodup) : ((recSet m k v).map Prod.fst).Nodup := by
  rw [map_fst_recSet]
  split_ifs with hk
  · exact h
  · rw [List.nodup_append]
    refine ⟨h, List.nodup_singleton _, ?_⟩
    intro x hx hxmem
    rw [List.mem_singleton] at hxmem
    subst hxmem
    exact hk hx

theorem mem_map_fst_recSet {α : Type} (m : List (Str × α)) (k : Str) (v : α) (x : Str) :
    x ∈ (recSet m k v).map Prod.fst ↔ x ∈ m.map Prod.fst ∨ x = k := by
  rw [map_fst_recSet]
  split_ifs with hk
  · constructor
    · exact Or.inl
    · rintro (hx | rfl)
      · exact hx
      · exact hk
  · simp

theorem foldl_recSet_keys {α β : Type} (f : β → Str) (g : β → α) :
    ∀ (l : List β) (m : List (Str × α)) (x : Str),
      x ∈ ((l.foldl (fun acc e => recSet acc (f e) (g e)) m).map Prod.fst) →
      x ∈ m.map Prod.fst ∨ x ∈ l.map f := by
  intro l
  induction l with
  | nil => exact fun m x hx => Or.inl hx
  | cons e rest ih =>
    intro m x hx
    rcases ih (recSet m (f e) (g e)) x hx with hx2 | hx2
    · rcases (mem_map_fst_recSet m (f e) (g e) x).mp hx2 with hx3 | rfl
      · exact Or.inl hx3
      · exact Or.inr (by simp)
    · exact Or.inr (by simp [hx2])

theorem foldl_recSet_nodup {α β : Type} (f : β → Str) (g : β → α) :
    ∀ (l : List β) (m : List (Str × α)), (m.map Prod.fst).Nodup →
      ((l.foldl (fun acc e => recSet acc (f e) (g e)) m).map Prod.fst).Nodup := by
  intro l
  induction l with
  | nil => exact fun m h => h
  | cons e rest ih =>
    intro m h
    exact ih _ (nodup_map_fst_recSet m (f e) (g e) h)

theorem attrsToMap_keys_nodup (env : JsEnv) (attrs : Option (List OtlpKeyValue)) :
    ((attrsToMap env attrs).map Prod.fst).Nodup := by
  cases attrs with
  | none => simp [attrsToMap]
  | some l =>
    exact foldl_recSet_nodup OtlpKeyValue.key (fun kv => valueToString env kv.value) l []
      (by simp)

theorem mem_attrsToMap_keys (env : JsEnv) (attrs : Option (List OtlpKeyValue)) (x : Str)
    (h : x ∈ (attrsToMap env attrs).map Prod.fst) :
    ∃ l, attrs = some l ∧ x ∈ l.map OtlpKeyValue.key := by
  cases attrs with
  | none => simp [attrsToMap] at h
  | some l =>
    refine ⟨l, rfl, ?_⟩
    rcases foldl_recSet_keys OtlpKeyValue.key (fun kv => valueToString env kv.value) l [] x h with
      h2 | h2
    · simp at h2
    · exact h2

theorem mergeAttrs_keys_nodup (env : JsEnv) (rA : List (Str × Str))
    (dpA : Option (List OtlpKeyValue)) (h : (rA.map Prod.fst).Nodup) :
    ((mergeAttrs env rA dpA).map Prod.fst).Nodup :=
  foldl_recSet_nodup Prod.fst Prod.snd (attrsToMap env dpA) rA h

theorem mem_mergeAttrs_keys (env : JsEnv) (rA : List (Str × Str))
    (dpA : Option (List OtlpKeyValue)) (x : Str)
    (h : x ∈ (mergeAttrs env rA dpA).map Prod.fst) :
    x ∈ rA.map Prod.fst ∨ ∃ l, dpA = some l ∧ x ∈ l.map OtlpKeyValue.key := by
  rcases foldl_recSet_keys Prod.fst Prod.snd (attrsToMap env dpA) rA x h with h2 | h2
  · exact Or.inl h2
  · exact Or.inr (mem_attrsToMap_keys env dpA x h2)

theorem recSet_filter_self {α : Type} (m : List (Str × α)) (k : Str) (v : α)
    (h : (m.map Prod.fst).Nodup) :
    (recSet m k v).filter (fun p => decide (p.1 = k)) = [(k, v)] := by
  have hnil : ∀ (rest : List (Str × α)), k ∉ rest.map Prod.fst →
      (rest.map (fun p => if p.1 = k then (k, v) else p)).filter
        (fun p => decide (p.1 = k)) = [] := by
    intro rest hrest
    rw [List.filter_eq_nil_iff]
    intro a ha
    obtain ⟨q, hq, hqa⟩ := List.mem_map.mp ha
    have hqk : q.1 ≠ k := fun hk => hrest (List.mem_map.mpr ⟨q, hq, hk⟩)
    rw [if_neg hqk] at hqa
    subst hqa
    simp [hqk]
  unfold recSet
  by_cases hany : m.any (fun p => decide (p.1 = k)) = true
  · rw [if_pos hany]
    have hk : k ∈ m.map Prod.fst := by
      rw [List.any_eq_true] at hany
      obtain ⟨p, hp, hpk⟩ := hany
      simp only [decide_eq_true_eq] at hpk
      exact List.mem_map.mpr ⟨p, hp, hpk⟩
    clear hany
    induction m with
    | nil => simp at hk
    | cons p rest ih =>
      by_cases hpk : p.1 = k
      · simp only [List.map_cons, if_pos hpk, List.filter_cons]
        rw [List.map_cons] at h
        have hrest : k ∉ rest.map Prod.fst := by
          rw [hpk] at h
          exact (List.nodup_cons.mp h).1
        simp [hnil rest hrest]
      · simp only [List.map_cons, if_neg hpk, List.filter_cons]
        have hk2 : k ∈ rest.map Prod.fst := by
          rcases List.mem_map.mp hk with ⟨q, hq, hqk⟩
          rcases List.mem_cons.mp hq with rfl | hq2
          · exact absurd hqk hpk
          · exact List.mem_map.mpr ⟨q, hq2, hqk⟩
        have h2 : (rest.map Prod.fst).Nodup := by
          rw [List.map_cons] at h
          exact (List.nodup_cons.mp h).2
        simp only [decide_eq_true_eq]
        rw [if_neg hpk]
        exact ih h2 hk2
  · rw [if_neg hany]
    rw [Bool.not_eq_true, List.any_eq_false] at hany
    have hk : k ∉ m.map Prod.fst := by
      intro hk
      obtain ⟨p, hp, hpk⟩ := List.mem_map.mp hk
      exact absurd (by simp [hpk]) (hany p hp)
    have hmnil : m.filter (fun p => decide (p.1 = k)) = [] := by
      rw [List.filter_eq_nil_iff]
      intro p hp
      simp only [decide_eq_true_eq]
      intro hpk
      exact hk (List.mem_map.mpr ⟨p, hp, hpk⟩)
    rw [List.filter_append, hmnil, List.nil_append]
    simp

/-- The sorted label list is a permutation of `__name__` followed by the
merged attributes. -/
theorem buildLabels_perm (env : JsEnv) (nm : Str) (merged : List (Str × Str)) :
    (buildLabels env nm merged).Perm
      (Label.mk (str ("__name__")) nm :: merged.map (fun p => Label.mk p.1 p.2)) :=
  List.mergeSort_perm _ _

/-- Exactly one `__name__` label when no merged key is `__name__`. -/
theorem buildLabels_countP_name (env : JsEnv) (nm : Str) (merged : List (Str × Str))
    (hnn : str ("__name__") ∉ merged.map Prod.fst) :
    (buildLabels env nm merged).countP (fun l => decide (l.name = str ("__name__"))) = 1 := by
  rw [(buildLabels_perm env nm merged).countP_eq, List.countP_cons]
  have htail : List.countP (fun l => decide (l.name = str ("__name__")))
      (merged.map (fun p => Label.mk p.1 p.2)) = 0 := by
    rw [List.countP_eq_length_filter]
    have hnil : (merged.map (fun p => Label.mk p.1 p.2)).filter
        (fun l => decide (l.name = str ("__name__"))) = [] := by
      rw [List.filter_eq_nil_iff]
      intro a ha
      obtain ⟨p, hp, hpa⟩ := List.mem_map.mp ha
      subst hpa
      simp only [decide_eq_true_eq]
      exact fun hk => hnn (List.mem_map.mpr ⟨p, hp, hk⟩)
    rw [hnil]
    rfl
  rw [htail]
  simp

/-- No duplicate label names when the merged keys are distinct and none is
`__name__`. -/
theorem buildLabels_names_nodup (env : JsEnv) (nm : Str) (merged : List (Str × Str))
    (hnodup : (merged.map Prod.fst).Nodup) (hnn : str ("__name__") ∉ merged.map Prod.fst) :
    ((buildLabels env nm merged).map Label.name).Nodup := by
  have hperm := (buildLabels_perm env nm merged).map Label.name
  rw [hperm.nodup_iff]
  have hmm : (merged.map (fun p => Label.mk p.1 p.2)).map Label.name = merged.map Prod.fst := by
    rw [List.map_map]
    rfl
  rw [List.map_cons, hmm]
  exact List.nodup_cons.mpr ⟨hnn, hnodup⟩

/-- The output of `buildLabels` is sorted by the locale comparator
(assumed transitive and total). -/
theorem buildLabels_sorted (env : JsEnv) (nm : Str) (merged : List (Str × Str))
    (htrans : ∀ a b c, env.lcLe a b = true → env.lcLe b c = true → env.lcLe a c = true)
    (htot : ∀ a b, env.lcLe a b || env.lcLe b a) :
    (buildLabels env nm merged).Pairwise (fun a b => env.lcLe a.name b.name = true) :=
  @List.sorted_mergeSort Label (fun a b => env.lcLe a.name b.name)
    (fun _ _ _ hab hbc => htrans _ _ _ hab hbc)
    (fun a b => htot a.name b.name) _

/-- Filtering the sorted labels for `__name__` gives the metric-name
label alone. -/
theorem buildLabels_filter_name (env : JsEnv) (nm : Str) (merged : List (Str × Str))
    (hnn : str ("__name__") ∉ merged.map Prod.fst) :
    (buildLabels env nm merged).filter (fun l => decide (l.name = str ("__name__"))) =
      [Label.mk (str ("__name__")) nm] := by
  refine List.perm_singleton.mp ?_
  have hperm := (buildLabels_perm env nm merged).filter
    (fun l => decide (l.name = str ("__name__")))
  rw [List.filter_cons] at hperm
  have htail : (merged.map (fun p => Label.mk p.1 p.2)).filter
      (fun l => decide (l.name = str ("__name__"))) = [] := by
    rw [List.filter_eq_nil_iff]
    intro a ha
    obtain ⟨p, hp, hpa⟩ := List.mem_map.mp ha
    subst hpa
    simp only [decide_eq_true_eq]
    exact fun hk => hnn (List.mem_map.mpr ⟨p, hp, hk⟩)
  simp only [decide_eq_true_eq, if_pos rfl, htail] at hperm
  exact hperm

/-- Filtering the sorted labels for any key `k ≠ __name__` whose entry in
the merged map is unique gives exactly that entry. -/
theorem buildLabels_filter_key (env : JsEnv) (nm : Str) (merged : List (Str × Str))
    (k : Str) (v : Str) (hk : k ≠ str ("__name__"))
    (hfil : merged.filter (fun p => decide (p.1 = k)) = [(k, v)]) :
    (buildLabels env nm merged).filter (fun l => decide (l.name = k)) = [Label.mk k v] := by
  refine List.perm_singleton.mp ?_
  have hperm := (buildLabels_perm env nm merged).filter (fun l => decide (l.name = k))
  rw [List.filter_cons] at hperm
  have hhead : (decide ((Label.mk (str ("__name__")) nm).name = k)) = false := by
    simp only [decide_eq_false_iff_not]
    exact fun h => hk h.symm
  rw [hhead] at hperm
  have htail : (merged.map (fun p => Label.mk p.1 p.2)).filter (fun l => decide (l.name = k)) =
      [Label.mk k v] := by
    rw [List.filter_map]
    have : ((fun l => decide (l.name = k)) ∘ fun p => Label.mk p.1 p.2) =
        fun p : Str × Str => decide (p.1 = k) := rfl
    rw [this, hfil]
    rfl
  rw [htail] at hperm
  exact hperm

/-! ### C3 — series label invariants -/

/-- Every series the converter produces carries labels of the form
`buildLabels env nm merged`, where the merged attribute map has distinct
keys, and — when no payload attribute key is `__name__` — no key equal to
`__name__`. -/
theorem converted_labels_shape (env : JsEnv) (p : OtlpMetricsPayload)
    (series : List TimeSeries) (hok : otlpToTimeSeries env p = .ok series)
    (hp : payloadNoNameKey p) (ts : TimeSeries) (hts : ts ∈ series) :
    ∃ nm merged, ts.labels = buildLabels env nm merged ∧
      (merged.map Prod.fst).Nodup ∧ str ("__name__") ∉ merged.map Prod.fst := by
  cases hrm : p.resourceMetrics with
  | none =>
    simp only [otlpToTimeSeries, hrm] at hok
    exact Except.noConfusion hok
  | some rms =>
    simp only [otlpToTimeSeries, hrm] at hok
    cases hmm : rms.mapM (convertResource env) with
    | error e =>
      rw [hmm] at hok
      exact Except.noConfusion hok
    | ok bss =>
      rw [hmm] at hok
      have hseries : series = bss.flatten :=
        (Except.ok.inj (show (Except.ok bss.flatten : Except Unit _) = .ok series from hok)).symm
      subst hseries
      obtain ⟨cs, hcsmem, hb⟩ := List.mem_flatten.mp hts
      obtain ⟨rm, hrmmem, hconv⟩ := mem_of_mapM_ok _ rms bss hmm cs hcsmem
      obtain ⟨hres, hscopes⟩ := hp rms hrm rm hrmmem
      cases hsm : rm.scopeMetrics with
      | none =>
        simp only [convertResource, hsm] at hconv
        exact Except.noConfusion hconv
      | some sms =>
        simp only [convertResource, hsm] at hconv
        cases hmm2 : sms.mapM
          (convertScope env (attrsToMap env (rm.resource.bind OtlpResource.attributes))) with
        | error e =>
          rw [hmm2] at hconv
          exact Except.noConfusion hconv
        | ok css =>
          rw [hmm2] at hconv
          have hcs : cs = css.flatten :=
            (Except.ok.inj
              (show (Except.ok css.flatten : Except Unit _) = .ok cs from hconv)).symm
          subst hcs
          obtain ⟨ds, hdsmem, hb2⟩ := List.mem_flatten.mp hb
          obtain ⟨sm, hsmmem, hconv2⟩ := mem_of_mapM_ok _ sms css hmm2 ds hdsmem
          cases hms : sm.metrics with
          | none =>
            simp only [convertScope, hms] at hconv2
            exact Except.noConfusion hconv2
          | some ms =>
            simp only [convertScope, hms] at hconv2
            have hds : ds = ms.flatMap
                (convertMetric env (attrsToMap env (rm.resource.bind OtlpResource.attributes))) :=
              (Except.ok.inj hconv2).symm
            subst hds
            obtain ⟨metric, hmmem, hbm⟩ := List.mem_flatMap.mp hb2
            have hmetric := hscopes sms hsm sm hsmmem ms hms metric hmmem
            have hrAnodup : ((attrsToMap env
                (rm.resource.bind OtlpResource.attributes)).map Prod.fst).Nodup :=
              attrsToMap_keys_nodup env _
            have hrAnn : str ("__name__") ∉
                (attrsToMap env (rm.resource.bind OtlpResource.attributes)).map Prod.fst := by
              intro hmem
              obtain ⟨l, hl, hkey⟩ := mem_attrsToMap_keys env _ _ hmem
              obtain ⟨kv, hkv, hkvk⟩ := List.mem_map.mp hkey
              exact hres l hl kv hkv hkvk
            have hm : ∀ (dpAttrs : Option (List OtlpKeyValue)), attrsNoNameKey dpAttrs →
                ((mergeAttrs env (attrsToMap env (rm.resource.bind OtlpResource.attributes))
                    dpAttrs).map Prod.fst).Nodup ∧
                str ("__name__") ∉ (mergeAttrs env
                    (attrsToMap env (rm.resource.bind OtlpResource.attributes))
                    dpAttrs).map Prod.fst := by
              intro dpAttrs hA
              refine ⟨mergeAttrs_keys_nodup env _ _ hrAnodup, ?_⟩
              intro hmem
              rcases mem_mergeAttrs_keys env _ _ _ hmem with h | ⟨l, hl, hkey⟩
              · exact hrAnn h
              · obtain ⟨kv, hkv, hkvk⟩ := List.mem_map.mp hkey
                exact hA l hl kv hkv hkvk
            cases hg : metric.gauge with
            | some dps =>
              simp only [convertMetric, hg] at hbm
              obtain ⟨dp, hdp, hdpeq⟩ := List.mem_map.mp hbm
              obtain ⟨hnodup, hnn⟩ := hm dp.attributes (hmetric.1 dps hg dp hdp)
              subst hdpeq
              exact ⟨metric.name, _, rfl, hnodup, hnn⟩
            | none =>
              cases hs : metric.sum with
              | some dps =>
                simp only [convertMetric, hg, hs] at hbm
                obtain ⟨dp, hdp, hdpeq⟩ := List.mem_map.mp hbm
                obtain ⟨hnodup, hnn⟩ := hm dp.attributes (hmetric.2.1 dps hs dp hdp)
                subst hdpeq
                exact ⟨metric.name, _, rfl, hnodup, hnn⟩
              | none =>
                cases hh : metric.histogram with
                | some dps =>
                  simp only [convertMetric, hg, hs, hh] at hbm
                  obtain ⟨dp, hdp, hbdp⟩ := List.mem_flatMap.mp hbm
                  obtain ⟨hnodup, hnn⟩ := hm dp.attributes (hmetric.2.2 dps hh dp hdp)
                  simp only [processHistogramDataPoint] at hbdp
                  rw [List.mem_append] at hbdp
                  rcases hbdp with hbk | htail
                  · obtain ⟨i, _, heq⟩ := List.mem_map.mp hbk
                    subst heq
                    refine ⟨metric.name ++ str ("_bucket"), _, rfl,
                      nodup_map_fst_recSet _ _ _ hnodup, ?_⟩
                    intro hmemn
                    rcases (mem_map_fst_recSet _ _ _ _).mp hmemn with h | h
                    · exact hnn h
                    · exact absurd h (by decide)
                  · rcases List.mem_cons.mp htail with heq | htail2
                    · subst heq
                      exact ⟨metric.name ++ str ("_count"), _, rfl, hnodup, hnn⟩
                    · rcases List.mem_cons.mp htail2 with heq | hfalse
                      · subst heq
                        exact ⟨metric.name ++ str ("_sum"), _, rfl, hnodup, hnn⟩
                      · cases hfalse
                | none =>
                  simp only [convertMetric, hg, hs, hh] at hbm
                  cases hbm

/-- C3 amended: the claim fails as stated because an OTLP attribute
literally named `__name__` duplicates the reserved label (see the
counterexample); for every payload none of whose attribute keys is
`__name__`, every produced series has `__name__` exactly once and no
duplicate label names, and its label sequence is sorted by the comparator
the converter sorts with (`localeCompare`, modelled as any transitive
total comparator; it coincides with ordinal order exactly when the
runtime's collation does). -/
theorem converted_series_label_invariants (env : JsEnv) (p : OtlpMetricsPayload)
    (series : List TimeSeries) (ts : TimeSeries)
    (htrans : ∀ a b c, env.lcLe a b = true → env.lcLe b c = true → env.lcLe a c = true)
    (htot : ∀ a b, (env.lcLe a b || env.lcLe b a) = true)
    (hp : payloadNoNameKey p)
    (hok : otlpToTimeSeries env p = .ok series) (hts : ts ∈ series) :
    ts.labels.countP (fun l => decide (l.name = str ("__name__"))) = 1 ∧
    (ts.labels.map Label.name).Nodup ∧
    ts.labels.Pairwise (fun a b => env.lcLe a.name b.name = true) := by
  obtain ⟨nm, merged, hshape, hnodup, hnn⟩ :=
    converted_labels_shape env p series hok hp ts hts
  rw [hshape]
  exact ⟨buildLabels_countP_name env nm merged hnn,
    buildLabels_names_nodup env nm merged hnodup hnn,
    buildLabels_sorted env nm merged htrans htot⟩

/-- C3 witness: under the ordinal comparator, the single gauge series of
`payload1` satisfies all three invariants. -/
theorem converted_series_label_invariants_witness :
    (⟨[⟨str ("__name__"), str ("test_metric")⟩], [⟨1, 1700000000000⟩]⟩ :
        TimeSeries).labels.countP (fun l => decide (l.name = str ("__name__"))) = 1 ∧
    ((⟨[⟨str ("__name__"), str ("test_metric")⟩], [⟨1, 1700000000000⟩]⟩ :
        TimeSeries).labels.map Label.name).Nodup ∧
    (⟨[⟨str ("__name__"), str ("test_metric")⟩], [⟨1, 1700000000000⟩]⟩ :
        TimeSeries).labels.Pairwise (fun a b => env0.lcLe a.name b.name = true) := by
  have hbl : buildLabels env0 (str ("test_metric")) [] =
      [⟨str ("__name__"), str ("test_metric")⟩] := by
    simp [buildLabels]
  have hconv : otlpToTimeSeries env0 payload1 =
      .ok [⟨[⟨str ("__name__"), str ("test_metric")⟩], [⟨1, 1700000000000⟩]⟩] := by
    rw [show otlpToTimeSeries env0 payload1 =
      .ok [⟨buildLabels env0 (str ("test_metric")) [], [⟨1, 1700000000000⟩]⟩] from rfl, hbl]
  have hp : payloadNoNameKey payload1 := by
    intro rms hrms rm hrm
    have hrms2 : rms = [⟨none, some [⟨some [gaugeMetric]⟩]⟩] := by
      have h0 : payload1.resourceMetrics = some [⟨none, some [⟨some [gaugeMetric]⟩]⟩] := rfl
      rw [h0] at hrms
      exact (Option.some_injective _ hrms).symm
    subst hrms2
    rcases List.mem_cons.mp hrm with rfl | hfalse
    · refine ⟨?_, ?_⟩
      · intro l hl
        cases hl
      intro sms hsms sm hsm ms hms m hm
      have hsms2 : sms = [⟨some [gaugeMetric]⟩] := (Option.some_injective _ hsms).symm
      subst hsms2
      rcases List.mem_cons.mp hsm with rfl | hfalse
      · have hms2 : ms = [gaugeMetric] := (Option.some_injective _ hms).symm
        subst hms2
        rcases List.mem_cons.mp hm with rfl | hfalse
        · refine ⟨?_, ?_, ?_⟩
          · intro dps hdps dp hdp
            have hdps2 : dps = [gaugeDp] := (Option.some_injective _ hdps).symm
            subst hdps2
            rcases List.mem_cons.mp hdp with rfl | hfalse
            · exact fun l hl => by cases hl
            · cases hfalse
          · intro dps hdps
            cases hdps
          · intro dps hdps
            cases hdps
        · cases hfalse
      · cases hfalse
    · cases hfalse
  exact converted_series_label_invariants env0 payload1 _ _
    (fun a b c => strLe_trans a b c) strLe_total hp hconv (by simp)

/-- C3 counterexample: an OTLP attribute literally named `__name__` makes
the converter emit a series with two `__name__` labels, where the claim
requires exactly one. -/
theorem converter_dup_name_label :
    otlpToTimeSeries env0 payloadDupName =
      .ok [⟨[⟨str ("__name__"), str ("m2")⟩, ⟨str ("__name__"), str ("x")⟩], [⟨1, 0⟩]⟩] ∧
    List.countP (fun l => decide (l.name = str ("__name__")))
      [⟨str ("__name__"), str ("m2")⟩, (⟨str ("__name__"), str ("x")⟩ : Label)] = 2 := by
  have hbl : buildLabels env0 (str ("m2")) [(str ("__name__"), str ("x"))] =
      [⟨str ("__name__"), str ("m2")⟩, ⟨str ("__name__"), str ("x")⟩] := by
    simp [buildLabels, env0, List.mergeSort, List.merge, strLe, strLt]
  constructor
  · rw [show otlpToTimeSeries env0 payloadDupName =
      .ok [⟨buildLabels env0 (str ("m2")) [(str ("__name__"), str ("x"))], [⟨1, 0⟩]⟩] from rfl,
      hbl]
  · decide

/-! ### C6 — histogram conversion -/

/-- C6: for a histogram data point with `n = |explicitBounds|`, the
converter emits `n + 3` series: indices `0 … n` are `_bucket` series whose
`le` label is the rendered bound (the literal `+Inf` at index `n`) and
whose sample is the cumulative sum of the first `i + 1` bucket counts
(missing counts read 0), then a `_count` series with the data point's
count (0 when absent) and a `_sum` series with its sum (0 when absent),
all at the data point's millisecond timestamp.  Stated for series whose
merged attributes have distinct keys and no key `__name__` (the series
name is then the unique `__name__` label). -/
theorem histogram_conversion (env : JsEnv) (name : Str) (dp : OtlpHistogramDataPoint)
    (rA : List (Str × Str)) (hA : (rA.map Prod.fst).Nodup)
    (hnn : str ("__name__") ∉ (mergeAttrs env rA dp.attributes).map Prod.fst) :
    (processHistogramDataPoint env name dp rA).length =
      (dp.explicitBounds.getD []).length + 3 ∧
    (∀ i, i ≤ (dp.explicitBounds.getD []).length →
      ∃ s, (processHistogramDataPoint env name dp rA)[i]? = some s ∧
        s.labels.filter (fun l => decide (l.name = str ("__name__"))) =
          [⟨str ("__name__"), name ++ str ("_bucket")⟩] ∧
        s.labels.filter (fun l => decide (l.name = str ("le"))) =
          [⟨str ("le"),
            if i < (dp.explicitBounds.getD []).length then
              env.showNum ((dp.explicitBounds.getD []).getD i 0)
            else str ("+Inf")⟩] ∧
        s.samples = [⟨(((dp.bucketCounts.getD []).take (i + 1)).sum : Rat),
          nanoToMs env dp.timeUnixNano⟩]) ∧
    (∃ c, (processHistogramDataPoint env name dp rA)[(dp.explicitBounds.getD []).length + 1]? =
        some c ∧
      c.labels.filter (fun l => decide (l.name = str ("__name__"))) =
        [⟨str ("__name__"), name ++ str ("_count")⟩] ∧
      c.samples = [⟨(dp.count.getD 0 : Rat), nanoToMs env dp.timeUnixNano⟩]) ∧
    (∃ u, (processHistogramDataPoint env name dp rA)[(dp.explicitBounds.getD []).length + 2]? =
        some u ∧
      u.labels.filter (fun l => decide (l.name = str ("__name__"))) =
        [⟨str ("__name__"), name ++ str ("_sum")⟩] ∧
      u.samples = [⟨dp.sum.getD 0, nanoToMs env dp.timeUnixNano⟩]) := by
  have hmerged : ((mergeAttrs env rA dp.attributes).map Prod.fst).Nodup :=
    mergeAttrs_keys_nodup env rA dp.attributes hA
  simp only [processHistogramDataPoint]
  refine ⟨?_, ?_, ?_, ?_⟩
  · simp
  · intro i hi
    rw [List.getElem?_append_left (by simp; omega), List.getElem?_map,
      List.getElem?_range (by omega)]
    refine ⟨_, rfl, ?_, ?_, rfl⟩
    · apply buildLabels_filter_name
      intro hmem
      rcases (mem_map_fst_recSet _ _ _ _).mp hmem with h | h
      · exact hnn h
      · exact absurd h (by decide)
    · exact buildLabels_filter_key env _ _ (str ("le")) _ (by decide)
        (recSet_filter_self _ _ _ hmerged)
  · rw [List.getElem?_append_right (by simp),
      show (dp.explicitBounds.getD []).length + 1 -
        ((List.range ((dp.explicitBounds.getD []).length + 1)).map _).length = 0 by simp]
    refine ⟨_, rfl, ?_, ?_⟩
    · exact buildLabels_filter_name env _ _ hnn
    · rfl
  · rw [List.getElem?_append_right (by simp),
      show (dp.explicitBounds.getD []).length + 2 -
        ((List.range ((dp.explicitBounds.getD []).length + 1)).map _).length = 1 by simp]
    refine ⟨_, rfl, ?_, ?_⟩
    · exact buildLabels_filter_name env _ _ hnn
    · rfl

/-- C6 witness: the spec's worked example — bounds `[10, 50, 100]`,
bucket counts `[2, 3, 4, 1]` — yields six series; the final bucket is
`+Inf` with cumulative value 10, `_count` carries 10 and `_sum` 25. -/
theorem histogram_conversion_witness :
    (processHistogramDataPoint env0 (str ("h")) histDp []).length = 6 ∧
    (∃ s, (processHistogramDataPoint env0 (str ("h")) histDp [])[3]? = some s ∧
      s.labels.filter (fun l => decide (l.name = str ("le"))) =
        [⟨str ("le"), str ("+Inf")⟩] ∧
      s.samples = [⟨10, 0⟩]) ∧
    (∃ c, (processHistogramDataPoint env0 (str ("h")) histDp [])[4]? = some c ∧
      c.samples = [⟨10, 0⟩]) ∧
    (∃ u, (processHistogramDataPoint env0 (str ("h")) histDp [])[5]? = some u ∧
      u.samples = [⟨25, 0⟩]) := by
  have h := histogram_conversion env0 (str ("h")) histDp [] (by simp)
    (by
      intro hmem
      have h0 : mergeAttrs env0 [] histDp.attributes = [] := rfl
      rw [h0] at hmem
      cases hmem)
  have hn : (histDp.explicitBounds.getD []).length = 3 := rfl
  refine ⟨?_, ?_, ?_, ?_⟩
  · rw [h.1, hn]
  · obtain ⟨s, hget, _, hle, hsmp⟩ := h.2.1 3 (by rw [hn])
    refine ⟨s, hget, ?_, ?_⟩
    · rw [hle, hn]
      norm_num
    · rw [hsmp]
      norm_num [histDp, nanoToMs]
  · obtain ⟨c, hget, _, hsmp⟩ := h.2.2.1
    rw [hn] at hget
    refine ⟨c, hget, ?_⟩
    rw [hsmp]
    norm_num [histDp, nanoToMs]
  · obtain ⟨u, hget, _, hsmp⟩ := h.2.2.2
    rw [hn] at hget
    refine ⟨u, hget, ?_⟩
    rw [hsmp]
    norm_num [histDp, nanoToMs]

/-! ### C5 — the single label pass of `applySchema` -/

theorem lookupRec_isSome_iff {α : Type} (ms : List (Str × α)) (k : Str) :
    (lookupRec ms k).isSome = true ↔ k ∈ ms.map Prod.fst := by
  induction ms with
  | nil => simp [lookupRec]
  | cons p rest ih =>
    by_cases hpk : p.1 = k
    · simp [lookupRec, List.find?_cons, hpk]
    · have hstep : lookupRec (p :: rest) k = lookupRec rest k := by
        simp [lookupRec, List.find?_cons, decide_eq_false hpk]
      rw [hstep, ih, List.map_cons]
      constructor
      · exact fun h => List.mem_cons_of_mem _ h
      · intro h
        rcases List.mem_cons.mp h with h2 | h2
        · exact absurd h2.symm hpk
        · exact h2

/-- The failure predicate of the pass: a non-`__name__` label whose value
an explicit matcher rejects. -/
theorem labelPass_eq_none_iff (schema : CompiledSchema) (labels : List Label) :
    labelPass schema labels = none ↔
      ∃ l ∈ labels, l.name ≠ str ("__name__") ∧
        ∃ m, lookupRec schema.labelMatchers l.name = some m ∧
          testFastMatcher m l.value = false := by
  induction labels with
  | nil => simp [labelPass]
  | cons l rest ih =>
    have hext : ∀ (P : Label → Prop), ¬ P l →
        ((∃ x ∈ l :: rest, P x) ↔ ∃ x ∈ rest, P x) := by
      intro P hPl
      constructor
      · rintro ⟨x, hx, hPx⟩
        rcases List.mem_cons.mp hx with rfl | hx2
        · exact absurd hPx hPl
        · exact ⟨x, hx2, hPx⟩
      · rintro ⟨x, hx, hPx⟩
        exact ⟨x, List.mem_cons_of_mem _ hx, hPx⟩
    simp only [labelPass]
    by_cases hnm : l.name = str ("__name__")
    · rw [if_pos hnm, Option.map_eq_none', ih]
      exact (hext _ (fun hP => hP.1 hnm)).symm
    · rw [if_neg hnm]
      cases hlk : lookupRec schema.labelMatchers l.name with
      | some m =>
        dsimp only
        by_cases htst : testFastMatcher m l.value = true
        · rw [if_pos htst, Option.map_eq_none', ih]
          refine (hext _ ?_).symm
          rintro ⟨_, m2, hm2, htst2⟩
          rw [hlk] at hm2
          injection hm2 with hm2e
          subst hm2e
          rw [htst] at htst2
          cases htst2
        · rw [if_neg htst]
          rw [Bool.not_eq_true] at htst
          constructor
          · intro _
            exact ⟨l, List.mem_cons_self _ _, hnm, m, hlk, htst⟩
          · intro _
            rfl
      | none =>
        have hheadfail : ¬ (l.name ≠ str ("__name__") ∧
            ∃ m, lookupRec schema.labelMatchers l.name = some m ∧
              testFastMatcher m l.value = false) := by
          rintro ⟨_, m2, hm2, _⟩
          rw [hlk] at hm2
          cases hm2
        cases hwc : schema.wildcardMatcher with
        | some w =>
          dsimp only
          by_cases htst : testFastMatcher w l.value = true
          · rw [if_pos htst, Option.map_eq_none', ih]
            exact (hext _ hheadfail).symm
          · rw [if_neg htst, ih]
            exact (hext _ hheadfail).symm
        | none =>
          dsimp only
          rw [ih]
          exact (hext _ hheadfail).symm

/-- On success, the pass keeps exactly the labels satisfying `keepPred`
(in order) and the counter counts `seenPred`. -/
theorem labelPass_eq_some_spec (schema : CompiledSchema) :
    ∀ (labels : List Label) (out : List Label) (seen : Nat),
      labelPass schema labels = some (out, seen) →
      out = labels.filter (keepPred schema) ∧ seen = labels.countP (seenPred schema) := by
  intro labels
  induction labels with
  | nil =>
    intro out seen h
    simp only [labelPass] at h
    injection h with h2
    rw [Prod.mk.injEq] at h2
    obtain ⟨hout, hseen⟩ := h2
    subst hout
    subst hseen
    simp
  | cons l rest ih =>
    intro out seen h
    simp only [labelPass] at h
    by_cases hnm : l.name = str ("__name__")
    · rw [if_pos hnm] at h
      obtain ⟨⟨out2, seen2⟩, hrest, heq⟩ := Option.map_eq_some'.mp h
      obtain ⟨hout2, hseen2⟩ := ih out2 seen2 hrest
      cases heq
      refine ⟨?_, ?_⟩
      · simp [List.filter_cons, show keepPred schema l = true from by simp [keepPred, hnm],
          hout2]
      · simp [List.countP_cons, show seenPred schema l = false from by simp [seenPred, hnm],
          hseen2]
    · rw [if_neg hnm] at h
      cases hlk : lookupRec schema.labelMatchers l.name with
      | some m =>
        rw [hlk] at h
        dsimp only at h
        by_cases htst : testFastMatcher m l.value = true
        · rw [if_pos htst] at h
          obtain ⟨⟨out2, seen2⟩, hrest, heq⟩ := Option.map_eq_some'.mp h
          obtain ⟨hout2, hseen2⟩ := ih out2 seen2 hrest
          cases heq
          refine ⟨?_, ?_⟩
          · simp [List.filter_cons,
              show keepPred schema l = true from by simp [keepPred, hlk], hout2]
          · simp [List.countP_cons,
              show seenPred schema l = true from by simp [seenPred, hnm, hlk], hseen2]
        · rw [if_neg htst] at h
          cases h
      | none =>
        rw [hlk] at h
        dsimp only at h
        cases hwc : schema.wildcardMatcher with
        | some w =>
          rw [hwc] at h
          dsimp only at h
          by_cases htst : testFastMatcher w l.value = true
          · rw [if_pos htst] at h
            obtain ⟨⟨out2, seen2⟩, hrest, heq⟩ := Option.map_eq_some'.mp h
            obtain ⟨hout2, hseen2⟩ := ih out2 seen2 hrest
            cases heq
            refine ⟨?_, ?_⟩
            · simp [List.filter_cons,
                show keepPred schema l = true from by simp [keepPred, hwc, htst], hout2]
            · simp [List.countP_cons,
                show seenPred schema l = false from by simp [seenPred, hlk], hseen2]
          · rw [if_neg htst] at h
            obtain ⟨hout2, hseen2⟩ := ih out seen h
            refine ⟨?_, ?_⟩
            · simp [List.filter_cons,
                show keepPred schema l = false from by
                  simp [keepPred, hnm, hlk, hwc, htst], hout2]
            · simp [List.countP_cons,
                show seenPred schema l = false from by simp [seenPred, hlk], hseen2]
        | none =>
          rw [hwc] at h
          dsimp only at h
          obtain ⟨hout2, hseen2⟩ := ih out seen h
          refine ⟨?_, ?_⟩
          · simp [List.filter_cons,
              show keepPred schema l = false from by simp [keepPred, hnm, hlk, hwc], hout2]
          · simp [List.countP_cons,
              show seenPred schema l = false from by simp [seenPred, hlk], hseen2]

/-- Counting the elements of `A` that differ from `nm` and occur in `B`
equals the symmetric count, for duplicate-free lists. -/
theorem countP_mem_comm (A B : List Str) (hA : A.Nodup) (hB : B.Nodup) (nm : Str) :
    A.countP (fun x => !decide (x = nm) && decide (x ∈ B)) =
      B.countP (fun x => !decide (x = nm) && decide (x ∈ A)) := by
  rw [List.countP_eq_length_filter, List.countP_eq_length_filter]
  rw [← List.toFinset_card_of_nodup (hA.filter _),
    ← List.toFinset_card_of_nodup (hB.filter _)]
  rw [List.toFinset_filter, List.toFinset_filter]
  congr 1
  ext x
  rw [Finset.mem_filter, Finset.mem_filter, List.mem_toFinset, List.mem_toFinset]
  simp only [Bool.and_eq_true, Bool.not_eq_true', decide_eq_false_iff_not,
    decide_eq_true_eq]
  tauto

/-- The seen-counter equals the number of declared explicit labels (other
than `__name__`) that actually occur among the series' label names. -/
theorem countP_seenPred_eq (schema : CompiledSchema) (labels : List Label)
    (hl : (labels.map Label.name).Nodup)
    (hk : (schema.labelMatchers.map Prod.fst).Nodup) :
    labels.countP (seenPred schema) =
      (schema.labelMatchers.map Prod.fst).countP
        (fun k => !decide (k = str ("__name__")) && decide (k ∈ labels.map Label.name)) := by
  have h1 : labels.countP (seenPred schema) =
      labels.countP (fun l => !decide (l.name = str ("__name__")) &&
        decide (l.name ∈ schema.labelMatchers.map Prod.fst)) := by
    apply List.countP_congr
    intro l _
    simp only [seenPred, Bool.and_eq_true]
    rw [lookupRec_isSome_iff]
    simp
  rw [h1]
  have h2 : labels.countP (fun l => !decide (l.name = str ("__name__")) &&
      decide (l.name ∈ schema.labelMatchers.map Prod.fst)) =
      (labels.map Label.name).countP (fun x => !decide (x = str ("__name__")) &&
        decide (x ∈ schema.labelMatchers.map Prod.fst)) := by
    rw [List.countP_map]
    rfl
  rw [h2]
  exact countP_mem_comm _ _ hl hk _

/-- C5 amended: within the single label pass, `__name__` labels bypass the
explicit matchers entirely (they always pass through and are never counted
toward the presence check, so a matcher declared for the name `__name__`
itself can never be satisfied and always drops the series).  For a series
with distinct label names and a compiled schema with distinct matcher
keys: the series is dropped exactly when some non-`__name__` label fails
its explicit matcher, or some declared matcher key is `__name__` or names
no label of the series; and on success the pass keeps exactly `__name__`,
the explicitly matched labels, and the wildcard-accepted unlisted labels,
removing other labels without dropping the series. -/
theorem applySchema_label_pass_spec (ts : TimeSeries) (schema : CompiledSchema)
    (hl : (ts.labels.map Label.name).Nodup)
    (hk : (schema.labelMatchers.map Prod.fst).Nodup) :
    (applySchema ts schema = none ↔
      (∃ l ∈ ts.labels, l.name ≠ str ("__name__") ∧
        ∃ m, lookupRec schema.labelMatchers l.name = some m ∧
          testFastMatcher m l.value = false) ∨
      (∃ k ∈ schema.labelMatchers.map Prod.fst,
        k = str ("__name__") ∨ ∀ l ∈ ts.labels, l.name ≠ k)) ∧
    (∀ out seen, labelPass schema ts.labels = some (out, seen) →
      out = ts.labels.filter (keepPred schema)) := by
  have hmissing : ∀ k, (¬ (!decide (k = str ("__name__")) &&
      decide (k ∈ ts.labels.map Label.name)) = true) ↔
      (k = str ("__name__") ∨ ∀ l ∈ ts.labels, l.name ≠ k) := by
    intro k
    simp only [Bool.and_eq_true, Bool.not_eq_true', decide_eq_false_iff_not,
      decide_eq_true_eq, List.mem_map]
    constructor
    · intro h
      by_cases hknm : k = str ("__name__")
      · exact Or.inl hknm
      · refine Or.inr ?_
        intro l hlmem hlname
        exact h ⟨fun h2 => hknm h2, l, hlmem, hlname⟩
    · rintro (rfl | hall) ⟨hne, l, hlmem, hlname⟩
      · exact hne rfl
      · exact hall l hlmem hlname
  refine ⟨?_, fun out seen h => (labelPass_eq_some_spec schema ts.labels out seen h).1⟩
  unfold applySchema
  cases hlp : labelPass schema ts.labels with
  | none =>
    exact iff_of_true rfl (Or.inl ((labelPass_eq_none_iff schema ts.labels).mp hlp))
  | some r =>
    obtain ⟨out, seen⟩ := r
    obtain ⟨hout, hseen⟩ := labelPass_eq_some_spec schema ts.labels out seen hlp
    dsimp only
    have hseen2 : seen = (schema.labelMatchers.map Prod.fst).countP
        (fun k => !decide (k = str ("__name__")) &&
          decide (k ∈ ts.labels.map Label.name)) := by
      rw [hseen]
      exact countP_seenPred_eq schema ts.labels hl hk
    by_cases hlt : seen < schema.labelMatchers.length
    · rw [if_pos hlt]
      refine iff_of_true rfl (Or.inr ?_)
      have hlen : (schema.labelMatchers.map Prod.fst).length =
          schema.labelMatchers.length := List.length_map _ _
      have hne : ¬ ∀ k ∈ schema.labelMatchers.map Prod.fst,
          (!decide (k = str ("__name__")) &&
            decide (k ∈ ts.labels.map Label.name)) = true := by
        intro hall
        have := List.countP_eq_length.mpr hall
        rw [← hseen2] at this
        omega
      push_neg at hne
      obtain ⟨k, hkmem, hkfail⟩ := hne
      exact ⟨k, hkmem, (hmissing k).mp hkfail⟩
    · rw [if_neg hlt]
      refine iff_of_false ?_ ?_
      · cases hml : schema.maxLabels with
        | some cap =>
          intro h
          exact Option.noConfusion h
        | none =>
          intro h
          exact Option.noConfusion h
      · rintro (hfail | ⟨k, hkmem, hkcond⟩)
        · rw [← labelPass_eq_none_iff schema ts.labels] at hfail
          rw [hlp] at hfail
          cases hfail
        · have hkfail : ¬ (!decide (k = str ("__name__")) &&
              decide (k ∈ ts.labels.map Label.name)) = true := (hmissing k).mpr hkcond
          have hcnt : (schema.labelMatchers.map Prod.fst).countP
              (fun k => !decide (k = str ("__name__")) &&
                decide (k ∈ ts.labels.map Label.name)) <
              (schema.labelMatchers.map Prod.fst).length := by
            rcases Nat.lt_or_ge ((schema.labelMatchers.map Prod.fst).countP
              (fun k => !decide (k = str ("__name__")) &&
                decide (k ∈ ts.labels.map Label.name)))
              ((schema.labelMatchers.map Prod.fst).length) with h | h
            · exact h
            · exfalso
              have heq : (schema.labelMatchers.map Prod.fst).countP
                  (fun k => !decide (k = str ("__name__")) &&
                    decide (k ∈ ts.labels.map Label.name)) =
                  (schema.labelMatchers.map Prod.fst).length :=
                Nat.le_antisymm (List.countP_le_length _) h
              exact hkfail (List.countP_eq_length.mp heq k hkmem)
          rw [List.length_map] at hcnt
          rw [← hseen2] at hcnt
          omega

/-- C5 counterexample: a schema declaring an explicit matcher for the key
`__name__` itself (matching any value) drops a series whose `__name__`
label is present and whose value the matcher accepts — under the claim's
reading no label fails its matcher and every declared matcher has a
corresponding label present, so the series should survive. -/
theorem name_matcher_always_drops :
    applySchema tsSimple schemaNameMatcher = none ∧
    (schemaNameMatcher.labelMatchers.all
      (fun p => tsSimple.labels.any (fun l => decide (l.name = p.1)))) = true ∧
    (tsSimple.labels.all (fun l =>
      match lookupRec schemaNameMatcher.labelMatchers l.name with
      | some m => testFastMatcher m l.value
      | none => true)) = true := by
  refine ⟨rfl, rfl, rfl⟩

/-- C5 witness: the amended pass semantics at a concrete schema requiring
`env = prod` and a concrete series carrying `env = prod`. -/
theorem applySchema_label_pass_spec_witness :
    (applySchema tsFoo schemaEnvProd = none ↔
      (∃ l ∈ tsFoo.labels, l.name ≠ str ("__name__") ∧
        ∃ m, lookupRec schemaEnvProd.labelMatchers l.name = some m ∧
          testFastMatcher m l.value = false) ∨
      (∃ k ∈ schemaEnvProd.labelMatchers.map Prod.fst,
        k = str ("__name__") ∨ ∀ l ∈ tsFoo.labels, l.name ≠ k)) ∧
    (∀ out seen, labelPass schemaEnvProd tsFoo.labels = some (out, seen) →
      out = tsFoo.labels.filter (keepPred schemaEnvProd)) :=
  applySchema_label_pass_spec tsFoo schemaEnvProd (by decide) (by decide)

/-! ### C4 — `applySchemas`: name resolution, first match, default action -/

theorem bsearchGo_eq (labels : List Label) (name : Str) (lo hi : Int) :
    bsearchGo labels name lo hi =
      if lo ≤ hi then
        let mid := (lo + hi) / 2
        let n := (labels.getD mid.toNat (Label.mk [] [])).name
        if n = name then mid
        else if strLt n name then bsearchGo labels name (mid + 1) hi
        else bsearchGo labels name lo (mid - 1)
      else -1 := by
  rw [bsearchGo]

/-- Indices of a strictly sorted label list carry strictly increasing
names. -/
theorem sorted_names_strict (labels : List Label)
    (hsorted : labels.Pairwise (fun a b => strLt a.name b.name = true))
    (i j : Nat) (hij : i < j) (hj : j < labels.length) :
    strLt (labels.getD i (Label.mk [] [])).name
      (labels.getD j (Label.mk [] [])).name = true := by
  rw [List.getD_eq_getElem _ _ (lt_trans hij hj), List.getD_eq_getElem _ _ hj]
  exact List.pairwise_iff_getElem.mp hsorted i j (lt_trans hij hj) hj hij

/-- Loop invariant proof for `bsearchGo`: on a strictly sorted label list,
with everything left of `lo` below `name` and everything right of `hi`
above it, the loop returns the index of the (unique) label named `name`,
or `-1` when there is none. -/
theorem bsearchGo_spec (labels : List Label) (name : Str)
    (hsorted : labels.Pairwise (fun a b => strLt a.name b.name = true)) :
    ∀ (fuel : Nat) (lo hi : Int), (hi + 1 - lo).toNat ≤ fuel → 0 ≤ lo →
      hi < (labels.length : Int) →
      (∀ j : Nat, j < labels.length → (j : Int) < lo →
        strLt (labels.getD j (Label.mk [] [])).name name = true) →
      (∀ j : Nat, j < labels.length → hi < (j : Int) →
        strLt name (labels.getD j (Label.mk [] [])).name = true) →
      ((∀ i : Nat, i < labels.length → (labels.getD i (Label.mk [] [])).name = name →
          bsearchGo labels name lo hi = (i : Int)) ∧
        ((∀ i : Nat, i < labels.length →
            (labels.getD i (Label.mk [] [])).name ≠ name) →
          bsearchGo labels name lo hi = -1)) := by
  intro fuel
  induction fuel with
  | zero =>
    intro lo hi hfuel hlo hhi hlow hhigh
    have hempty : ¬ lo ≤ hi := by omega
    rw [bsearchGo_eq, if_neg hempty]
    constructor
    · intro i hi2 hname
      exfalso
      by_cases hcase : (i : Int) < lo
      · have := hlow i hi2 hcase
        rw [hname, strLt_irrefl] at this
        cases this
      · have := hhigh i hi2 (by omega)
        rw [hname, strLt_irrefl] at this
        cases this
    · intro _
      rfl
  | succ fuel ih =>
    intro lo hi hfuel hlo hhi hlow hhigh
    by_cases hle : lo ≤ hi
    case neg =>
      rw [bsearchGo_eq, if_neg hle]
      constructor
      · intro i hi2 hname
        exfalso
        by_cases hcase : (i : Int) < lo
        · have := hlow i hi2 hcase
          rw [hname, strLt_irrefl] at this
          cases this
        · have := hhigh i hi2 (by omega)
          rw [hname, strLt_irrefl] at this
          cases this
      · intro _
        rfl
    case pos =>
      have hmidlo : lo ≤ (lo + hi) / 2 := by
        have h2 : (2 : Int) * lo / 2 ≤ (lo + hi) / 2 :=
          Int.ediv_le_ediv (by norm_num) (by omega)
        rwa [Int.mul_ediv_cancel_left _ (by norm_num)] at h2
      have hmidhi : (lo + hi) / 2 ≤ hi := by
        have h2 : (lo + hi) / 2 ≤ (2 : Int) * hi / 2 :=
          Int.ediv_le_ediv (by norm_num) (by omega)
        rwa [Int.mul_ediv_cancel_left _ (by norm_num)] at h2
      have hmidnn : 0 ≤ (lo + hi) / 2 := le_trans hlo hmidlo
      have hmidnat : ((lo + hi) / 2).toNat < labels.length := by omega
      have hmidcast : (((lo + hi) / 2).toNat : Int) = (lo + hi) / 2 :=
        Int.toNat_of_nonneg hmidnn
      rw [bsearchGo_eq, if_pos hle]
      dsimp only
      by_cases heq : (labels.getD ((lo + hi) / 2).toNat (Label.mk [] [])).name = name
      · rw [if_pos heq]
        constructor
        · intro i hi2 hname
          rcases Nat.lt_trichotomy i (((lo + hi) / 2).toNat) with hc | hc | hc
          · exfalso
            have := sorted_names_strict labels hsorted i _ hc hmidnat
            rw [hname, heq, strLt_irrefl] at this
            cases this
          · rw [hc, hmidcast]
          · exfalso
            have := sorted_names_strict labels hsorted _ i hc hi2
            rw [hname, heq, strLt_irrefl] at this
            cases this
        · intro hnone
          exact absurd heq (hnone _ hmidnat)
      · rw [if_neg heq]
        by_cases hlt : strLt (labels.getD ((lo + hi) / 2).toNat (Label.mk [] [])).name
            name = true
        · rw [if_pos hlt]
          apply ih ((lo + hi) / 2 + 1) hi (by omega) (by omega) hhi
          · intro j hj hjlt
            rcases Nat.lt_trichotomy j (((lo + hi) / 2).toNat) with hc | hc | hc
            · exact strLt_trans _ _ _ (sorted_names_strict labels hsorted j _ hc hmidnat) hlt
            · rw [hc]
              exact hlt
            · omega
          · exact hhigh
        · rw [if_neg hlt]
          rw [Bool.not_eq_true] at hlt
          have hgt : strLt name
              (labels.getD ((lo + hi) / 2).toNat (Label.mk [] [])).name = true := by
            rcases strLt_connex name (labels.getD ((lo + hi) / 2).toNat (Label.mk [] [])).name
              (fun h => heq h.symm) with h | h
            · exact h
            · rw [h] at hlt
              cases hlt
          apply ih lo ((lo + hi) / 2 - 1) (by omega) hlo (by omega) hlow
          intro j hj hjgt
          rcases Nat.lt_trichotomy (((lo + hi) / 2).toNat) j with hc | hc | hc
          · exact strLt_trans _ _ _ hgt (sorted_names_strict labels hsorted _ j hc hj)
          · rw [← hc]
            exact hgt
          · omega

/-- `bsearchLabel` on a strictly sorted label list returns the index of
the label named `name` when present, `-1` otherwise. -/
theorem bsearchLabel_spec (labels : List Label) (name : Str)
    (hsorted : labels.Pairwise (fun a b => strLt a.name b.name = true)) :
    (∀ i : Nat, i < labels.length → (labels.getD i (Label.mk [] [])).name = name →
      bsearchLabel labels name = (i : Int)) ∧
    ((∀ i : Nat, i < labels.length → (labels.getD i (Label.mk [] [])).name ≠ name) →
      bsearchLabel labels name = -1) := by
  have h := bsearchGo_spec labels name hsorted (labels.length) 0
    ((labels.length : Int) - 1) (by omega) (by omega) (by omega)
    (fun j _ hj => absurd hj (by omega))
    (fun j hj hj2 => absurd hj2 (by omega))
  exact h

/-- `resolveMetricName` on a strictly sorted label list agrees with linear
lookup of the `__name__` label (empty string when absent). -/
theorem resolveMetricName_spec (ts : TimeSeries)
    (hsorted : ts.labels.Pairwise (fun a b => strLt a.name b.name = true)) :
    resolveMetricName ts =
      (match ts.labels.find? (fun l => decide (l.name = str ("__name__"))) with
       | some l => l.value
       | none => []) := by
  obtain ⟨hfound, hnone⟩ := bsearchLabel_spec ts.labels (str ("__name__")) hsorted
  cases hfind : ts.labels.find? (fun l => decide (l.name = str ("__name__"))) with
  | some l =>
    have hl := List.find?_some hfind
    simp only [decide_eq_true_eq] at hl
    have hmem := List.mem_of_find?_eq_some hfind
    obtain ⟨i, hi, hgeti⟩ := List.mem_iff_getElem.mp hmem
    have hgetd : ts.labels.getD i (Label.mk [] []) = l := by
      rw [List.getD_eq_getElem _ _ hi, hgeti]
    have hidx := hfound i hi (by rw [hgetd, hl])
    rw [resolveMetricName]
    rw [hidx]
    rw [if_neg (by omega)]
    simp only [Int.toNat_natCast]
    rw [hgetd]
  | none =>
    have hforall := List.find?_eq_none.mp hfind
    have hidx : bsearchLabel ts.labels (str ("__name__")) = -1 := by
      apply hnone
      intro i hi
      have hmem : ts.labels.getD i (Label.mk [] []) ∈ ts.labels := by
        rw [List.getD_eq_getElem _ _ hi]
        exact List.getElem_mem hi
      have h2 := hforall _ hmem
      simpa using h2
    rw [resolveMetricName, hidx]
    rfl

/-- `filterMap` agrees with `flatMap` of `Option.toList`. -/
theorem filterMap_eq_flatMap_toList {α β : Type} (f : α → Option β) (l : List α) :
    l.filterMap f = l.flatMap (fun a => (f a).toList) := by
  induction l with
  | nil => rfl
  | cons hd tl ih =>
    rw [List.filterMap_cons, List.flatMap_cons]
    cases f hd with
    | none => simpa using ih
    | some b => simpa using ih

/-- C4: on series with strictly (ordinal-)sorted label lists,
`applySchemas` (1) resolves each series' metric name by binary search,
agreeing with linear lookup of `__name__` (empty when absent); (2) maps
each series through the *first* compiled schema whose name pattern
matches, keeping it unchanged when none matches and the default action is
`pass` and dropping it when the default action is `drop`; and (3) never
consults schemas after the first match: for any decomposition
`pre ++ s :: post` where every schema in `pre` fails and `s` matches, the
result is `applySchema ts s` regardless of `post`. -/
theorem applySchemas_first_match_default (series : List TimeSeries)
    (schemas : List CompiledSchema) (da : DefaultAction)
    (hsorted : ∀ ts ∈ series, ts.labels.Pairwise (fun a b => strLt a.name b.name = true)) :
    (∀ ts ∈ series, resolveMetricName ts =
      (match ts.labels.find? (fun l => decide (l.name = str ("__name__"))) with
       | some l => l.value
       | none => [])) ∧
    applySchemas series schemas da = series.flatMap (fun ts =>
      match schemas.find? (fun s => s.namePattern.test (resolveMetricName ts)) with
      | some s => (applySchema ts s).toList
      | none => if da = .pass then [ts] else []) ∧
    (∀ ts pre s post, s.namePattern.test (resolveMetricName ts) = true →
      (∀ s2 ∈ pre, s2.namePattern.test (resolveMetricName ts) = false) →
      applySchemas [ts] (pre ++ s :: post) da = (applySchema ts s).toList) := by
  refine ⟨fun ts hts => resolveMetricName_spec ts (hsorted ts hts), ?_, ?_⟩
  · rw [applySchemas, filterMap_eq_flatMap_toList]
    apply List.flatMap_congr ?_
    intro ts _
    cases schemas.find? (fun s => s.namePattern.test (resolveMetricName ts)) with
    | some s => rfl
    | none =>
      cases da with
      | pass => rfl
      | drop => rfl
  · intro ts pre s post hmatch hpre
    have hfind : (pre ++ s :: post).find?
        (fun s2 => s2.namePattern.test (resolveMetricName ts)) = some s := by
      rw [List.find?_append, List.find?_eq_none.mpr ?_]
      · rw [Option.none_or, List.find?_cons, hmatch]
      · intro s2 hs2
        simp [hpre s2 hs2]
    rw [applySchemas, filterMap_eq_flatMap_toList]
    simp only [List.flatMap_cons, List.flatMap_nil, List.append_nil]
    rw [hfind]

/-- C4 witness: one sorted series named `foo` and one schema matching
`foo`. -/
theorem applySchemas_first_match_default_witness :
    (∀ ts ∈ [tsFoo], resolveMetricName ts =
      (match ts.labels.find? (fun l => decide (l.name = str ("__name__"))) with
       | some l => l.value
       | none => [])) ∧
    applySchemas [tsFoo] [schemaFoo] .pass = [tsFoo].flatMap (fun ts =>
      match [schemaFoo].find? (fun s => s.namePattern.test (resolveMetricName ts)) with
      | some s => (applySchema ts s).toList
      | none => if DefaultAction.pass = .pass then [ts] else []) ∧
    (∀ ts pre s post, s.namePattern.test (resolveMetricName ts) = true →
      (∀ s2 ∈ pre, s2.namePattern.test (resolveMetricName ts) = false) →
      applySchemas [ts] (pre ++ s :: post) .pass = (applySchema ts s).toList) :=
  applySchemas_first_match_default [tsFoo] [schemaFoo] .pass
    (by
      intro ts hts
      rcases List.mem_cons.mp hts with rfl | hfalse
      · decide
      · cases hfalse)

end Turbine
